import Mathlib

/-!
Verification development for the interval/range algebra of the xocto library
(src/xocto/ranges.py and src/xocto/intervaltree.py), as a shallow embedding.

Every definition in the first part of this file is a direct transcription of
the corresponding Python method; comments cite the source location.  Machine
values that Python represents as datetime.date / datetime.datetime are
embedded as integers (proleptic ordinal day numbers / timestamps); the
generic range algebra is embedded over an arbitrary linear order.
-/

namespace Xocto

/-- Transcription of the enum RangeBoundaries (ranges.py lines 31 to 50). -/
inductive RangeBoundaries
  | EXCLUSIVE_EXCLUSIVE
  | EXCLUSIVE_INCLUSIVE
  | INCLUSIVE_EXCLUSIVE
  | INCLUSIVE_INCLUSIVE
deriving DecidableEq

/-- Transcription of RangeBoundaries.from_bounds (ranges.py lines 37 to 50). -/
def RangeBoundaries.from_bounds : Bool → Bool → RangeBoundaries
  | true, true => .EXCLUSIVE_EXCLUSIVE
  | true, false => .EXCLUSIVE_INCLUSIVE
  | false, true => .INCLUSIVE_EXCLUSIVE
  | false, false => .INCLUSIVE_INCLUSIVE

/-- Derived flag _is_left_exclusive computed in Range.__init__ (lines 187-190). -/
def RangeBoundaries.is_left_exclusive : RangeBoundaries → Bool
  | .EXCLUSIVE_EXCLUSIVE => true
  | .EXCLUSIVE_INCLUSIVE => true
  | _ => false

/-- Derived flag _is_right_exclusive computed in Range.__init__ (lines 191-194). -/
def RangeBoundaries.is_right_exclusive : RangeBoundaries → Bool
  | .EXCLUSIVE_EXCLUSIVE => true
  | .INCLUSIVE_EXCLUSIVE => true
  | _ => false

/-- The data of a Python Range object (ranges.py lines 57, 163-169): the two
optional endpoints (None meaning unbounded) and the boundaries value.  The
four _is_left/right_in/exclusive slots are derived fields, embedded here as
functions of boundaries. -/
structure Range (α : Type) where
  start : Option α
  end_ : Option α
  boundaries : RangeBoundaries
deriving DecidableEq

variable {α : Type} [LinearOrder α]

namespace Range

/-- Slot _is_left_exclusive. -/
def is_left_exclusive (r : Range α) : Bool := r.boundaries.is_left_exclusive

/-- Slot _is_left_inclusive (line 195). -/
def is_left_inclusive (r : Range α) : Bool := !r.boundaries.is_left_exclusive

/-- Slot _is_right_exclusive. -/
def is_right_exclusive (r : Range α) : Bool := r.boundaries.is_right_exclusive

/-- Slot _is_right_inclusive (line 196). -/
def is_right_inclusive (r : Range α) : Bool := !r.boundaries.is_right_exclusive

/-- The validity checks of Range.__init__ (ranges.py lines 198-212): an
unbounded start must be left-exclusive, an unbounded end must be
right-exclusive, and when both endpoints are present they must satisfy
start < end, or start <= end for INCLUSIVE_INCLUSIVE boundaries. -/
def valid (r : Range α) : Bool :=
  (match r.start with
   | none => r.boundaries.is_left_exclusive
   | some _ => true) &&
  (match r.end_, r.start with
   | none, _ => r.boundaries.is_right_exclusive
   | some e, some s =>
       if r.boundaries = RangeBoundaries.INCLUSIVE_INCLUSIVE
       then decide (s ≤ e) else decide (s < e)
   | some _, none => true)

/-- Errors of the embedded methods: a ValueError raised by Range.__init__. -/
inductive Error
  | invalidRange
deriving DecidableEq

/-- The constructor Range(start, end, boundaries): returns the range when the
validity checks pass and the ValueError otherwise (ranges.py lines 171-220). -/
def make (s e : Option α) (b : RangeBoundaries) : Except Error (Range α) :=
  if (Range.mk s e b).valid then .ok (Range.mk s e b) else .error .invalidRange

/-- Transcription of Range.continuum (ranges.py lines 222-227). -/
def continuum (α : Type) : Range α :=
  Range.mk none none RangeBoundaries.EXCLUSIVE_EXCLUSIVE

/-- Transcription of Range._is_inside_left_bound (ranges.py lines 310-319). -/
def is_inside_left_bound (r : Range α) (item : α) : Bool :=
  match r.start with
  | none => true
  | some s => if r.is_left_exclusive then decide (s < item) else decide (s ≤ item)

/-- Transcription of Range._is_inside_right_bound (ranges.py lines 321-330). -/
def is_inside_right_bound (r : Range α) (item : α) : Bool :=
  match r.end_ with
  | none => true
  | some e => if r.is_right_exclusive then decide (item < e) else decide (item ≤ e)

/-- Transcription of Range.__contains__ (ranges.py lines 288-292). -/
def contains (r : Range α) (item : α) : Bool :=
  r.is_inside_left_bound item && r.is_inside_right_bound item

/-- Transcription of Range.__lt__ (ranges.py lines 264-286). -/
def lt (r o : Range α) : Bool :=
  if r.start = o.start then
    if r.is_left_exclusive && !o.is_left_exclusive then false
    else if !r.is_left_exclusive && o.is_left_exclusive then true
    else if r.end_ = o.end_ then
      r.is_right_exclusive && !o.is_right_exclusive
    else
      match r.end_, o.end_ with
      | _, none => true
      | none, some _ => false
      | some e1, some e2 => decide (e1 < e2)
  else
    match r.start, o.start with
    | none, _ => true
    | some _, none => false
    | some s1, some s2 => decide (s1 < s2)

/-- Transcription of Range.is_disjoint (ranges.py lines 332-350). -/
def is_disjoint (r o : Range α) : Bool :=
  (match r.end_, o.start with
   | some e, some s => !(r.is_inside_right_bound s && o.is_inside_left_bound e)
   | _, _ => false) ||
  (match r.start, o.end_ with
   | some s, some e => !(r.is_inside_left_bound e && o.is_inside_right_bound s)
   | _, _ => false)

/-- Body of Range.intersection after the sort of the operands (ranges.py
lines 359-378): range_l and range_r are the two ranges sorted by __lt__, and
the final Range(...) construction goes through make, so a ValueError
surfaces as the error value, exactly as in Python. -/
def intersection_core (range_l range_r : Range α) : Except Error (Option (Range α)) :=
  let er : Option α × Bool :=
    match range_l.end_ with
    | some el =>
        if range_r.is_inside_right_bound el then (some el, range_l.is_right_exclusive)
        else (range_r.end_, range_r.is_right_exclusive)
    | none => (range_r.end_, range_r.is_right_exclusive)
  (make range_r.start er.1 (RangeBoundaries.from_bounds range_r.is_left_exclusive er.2)).map some

/-- Transcription of Range.intersection (ranges.py lines 352-378): the
disjointness early return, then the sort of the pair, then the core. -/
def intersectionE (r o : Range α) : Except Error (Option (Range α)) :=
  if r.is_disjoint o then .ok none
  else if r.lt o then intersection_core r o else intersection_core o r

/-- Body of Range.union after the sort of the operands (ranges.py lines
385-409): the disjoint-and-not-touching early return, then the construction
of the covering range, with the same convention for make as the
intersection. -/
def union_core (range_l range_r : Range α) : Except Error (Option (Range α)) :=
  if range_l.is_disjoint range_r &&
     !(decide (range_l.end_ = range_r.start) &&
       (range_l.is_right_inclusive || range_r.is_left_inclusive)) then .ok none
  else
    let er : Option α × Bool :=
      match range_r.end_ with
      | some e2 =>
          if range_l.is_inside_right_bound e2 then (range_l.end_, range_l.is_right_exclusive)
          else (range_r.end_, range_r.is_right_exclusive)
      | none => (range_r.end_, range_r.is_right_exclusive)
    (make range_l.start er.1 (RangeBoundaries.from_bounds range_l.is_left_exclusive er.2)).map some

/-- Transcription of Range.union (ranges.py lines 380-409): the sort of the
pair, then the core. -/
def unionE (r o : Range α) : Except Error (Option (Range α)) :=
  if r.lt o then union_core r o else union_core o r

/-- Range.intersection as used by callers that rely on it not raising: the
theorem intersectionE_ok below proves the error branch is unreachable for
valid arguments, so this projection agrees with the Python method there. -/
def intersection (r o : Range α) : Option (Range α) :=
  match r.intersectionE o with
  | .ok x => x
  | .error _ => none

/-- Range.union, projected in the same way as intersection; the theorem
unionE_ok below proves the error branch is unreachable for valid arguments. -/
def union (r o : Range α) : Option (Range α) :=
  match r.unionE o with
  | .ok x => x
  | .error _ => none

end Range

section Sanity

example : Range.union (Range.mk (some (0 : Int)) (some 2) .INCLUSIVE_EXCLUSIVE)
    (Range.mk (some 2) (some 4) .INCLUSIVE_EXCLUSIVE) =
    some (Range.mk (some 0) (some 4) .INCLUSIVE_EXCLUSIVE) := by decide

example : Range.union (Range.mk (some (0 : Int)) (some 2) .INCLUSIVE_EXCLUSIVE)
    (Range.mk (some 3) (some 4) .INCLUSIVE_EXCLUSIVE) = none := by decide

example : Range.intersection (Range.mk (some (0 : Int)) (some 2) .INCLUSIVE_EXCLUSIVE)
    (Range.mk (some 1) (some 4) .INCLUSIVE_EXCLUSIVE) =
    some (Range.mk (some 1) (some 2) .INCLUSIVE_EXCLUSIVE) := by decide

example : Range.intersection (Range.mk (some (0 : Int)) (some 2) .INCLUSIVE_INCLUSIVE)
    (Range.mk (some 2) (some 4) .INCLUSIVE_EXCLUSIVE) =
    some (Range.mk (some 2) (some 2) .INCLUSIVE_INCLUSIVE) := by decide

example : Range.lt (Range.mk (some (1 : Int)) (some 2) .INCLUSIVE_EXCLUSIVE)
    (Range.mk none (some 2) .EXCLUSIVE_EXCLUSIVE) = false := by decide

end Sanity

/-!
Order-theoretic structure of Range.__lt__.  The comparison is exactly a
lexicographic comparison of the tuple (start with absent lowest,
left-exclusivity with inclusive first, end with absent highest,
right-exclusivity with exclusive first); we package that tuple as a key into
a lexicographic product of linear orders and derive the strict total order
properties from it.
-/

/-- Embeds an optional start endpoint with none as the bottom element. -/
def obot (s : Option α) : WithBot α :=
  match s with
  | none => ⊥
  | some x => (x : WithBot α)

/-- Embeds an optional end endpoint with none as the top element. -/
def otop (s : Option α) : WithTop α :=
  match s with
  | none => ⊤
  | some x => (x : WithTop α)

theorem obot_inj {s t : Option α} : obot s = obot t ↔ s = t := by
  cases s <;> cases t <;>
    simp [obot, WithBot.coe_inj, WithBot.bot_ne_coe, WithBot.coe_ne_bot]

theorem otop_inj {s t : Option α} : otop s = otop t ↔ s = t := by
  cases s <;> cases t <;>
    simp [otop, WithTop.coe_inj, WithTop.top_ne_coe, WithTop.coe_ne_top]

/-- Sort key of a range: Range.__lt__ is the strict lexicographic order on
this key, as proved in lt_iff_key. -/
def Range.key (r : Range α) : WithBot α ×ₗ Bool ×ₗ WithTop α ×ₗ Bool :=
  toLex (obot r.start,
    toLex (r.is_left_exclusive, toLex (otop r.end_, r.is_right_inclusive)))

theorem key_lt_iff (r o : Range α) :
    r.key < o.key ↔
      obot r.start < obot o.start ∨ (obot r.start = obot o.start ∧
        (r.is_left_exclusive < o.is_left_exclusive ∨
          (r.is_left_exclusive = o.is_left_exclusive ∧
            (otop r.end_ < otop o.end_ ∨
              (otop r.end_ = otop o.end_ ∧
                r.is_right_inclusive < o.is_right_inclusive))))) := by
  unfold Range.key
  rw [Prod.Lex.lt_iff]
  simp only [Prod.Lex.lt_iff, toLex_inj, Prod.mk.injEq]

theorem key_inj {r o : Range α} (h : r.key = o.key) : r = o := by
  unfold Range.key at h
  rw [toLex_inj, Prod.mk.injEq] at h
  obtain ⟨h1, h2⟩ := h
  rw [toLex_inj, Prod.mk.injEq] at h2
  obtain ⟨h2, h3⟩ := h2
  rw [toLex_inj, Prod.mk.injEq] at h3
  obtain ⟨h3, h4⟩ := h3
  have hs : r.start = o.start := obot_inj.mp h1
  have he : r.end_ = o.end_ := otop_inj.mp h3
  have hre : r.boundaries.is_right_exclusive = o.boundaries.is_right_exclusive := by
    simp only [Range.is_right_inclusive] at h4
    cases hx : r.boundaries.is_right_exclusive <;>
      cases hy : o.boundaries.is_right_exclusive <;> simp_all
  have hle : r.boundaries.is_left_exclusive = o.boundaries.is_left_exclusive := h2
  have hb : r.boundaries = o.boundaries := by
    cases hbr : r.boundaries <;> cases hbo : o.boundaries <;>
      simp_all [RangeBoundaries.is_left_exclusive, RangeBoundaries.is_right_exclusive]
  cases r; cases o
  simp_all

theorem lt_end_iff (r o : Range α) :
    ((if r.end_ = o.end_ then r.is_right_exclusive && !o.is_right_exclusive
      else
        match r.end_, o.end_ with
        | _, none => true
        | none, some _ => false
        | some e1, some e2 => decide (e1 < e2)) = true) ↔
      (otop r.end_ < otop o.end_ ∨
        (otop r.end_ = otop o.end_ ∧ r.is_right_inclusive < o.is_right_inclusive)) := by
  by_cases he : r.end_ = o.end_
  · have ht : otop r.end_ = otop o.end_ := by rw [he]
    rw [if_pos he]
    simp only [ht, lt_irrefl, false_or, true_and]
    cases h1 : r.boundaries.is_right_exclusive <;>
      cases h2 : o.boundaries.is_right_exclusive <;>
        simp [Range.is_right_inclusive, Range.is_right_exclusive, h1, h2, Bool.lt_iff]
  · have ht : otop r.end_ ≠ otop o.end_ := fun hh => he (otop_inj.mp hh)
    rw [if_neg he]
    simp only [ht, false_and, or_false]
    cases hre : r.end_ <;> cases hro : o.end_
    · exact absurd (hre.trans hro.symm) he
    · simp [otop, not_top_lt]
    · simp [otop, WithTop.coe_lt_top]
    · simp [otop, WithTop.coe_lt_coe]

theorem lt_iff_key (r o : Range α) : r.lt o = true ↔ r.key < o.key := by
  rw [key_lt_iff]
  unfold Range.lt
  by_cases hs : r.start = o.start
  · have hb : obot r.start = obot o.start := by rw [hs]
    rw [if_pos hs]
    simp only [hb, lt_irrefl, false_or, true_and]
    by_cases hA : (r.is_left_exclusive && !o.is_left_exclusive) = true
    · rw [if_pos hA]
      rw [Bool.and_eq_true, Bool.not_eq_true'] at hA
      simp [hA.1, hA.2, Bool.lt_iff]
    · rw [if_neg hA]
      by_cases hB : (!r.is_left_exclusive && o.is_left_exclusive) = true
      · rw [if_pos hB]
        rw [Bool.and_eq_true, Bool.not_eq_true'] at hB
        simp [hB.1, hB.2, Bool.lt_iff]
      · have hEq : r.is_left_exclusive = o.is_left_exclusive := by
          cases h1 : r.is_left_exclusive <;> cases h2 : o.is_left_exclusive <;>
            simp_all
        rw [if_neg hB]
        simp only [hEq, lt_irrefl, false_or, true_and]
        exact lt_end_iff r o
  · have hb : obot r.start ≠ obot o.start := fun hh => hs (obot_inj.mp hh)
    rw [if_neg hs]
    simp only [hb, false_and, or_false]
    cases hrs : r.start <;> cases hos : o.start
    · exact absurd (hrs.trans hos.symm) hs
    · simp [obot, WithBot.bot_lt_coe]
    · simp [obot, not_lt_bot]
    · simp [obot, WithBot.coe_lt_coe]

theorem lt_asymm_ranges {r o : Range α} (h : r.lt o = true) : o.lt r = false := by
  by_contra hc
  rw [Bool.not_eq_false, lt_iff_key] at hc
  rw [lt_iff_key] at h
  exact absurd (h.trans hc) (lt_irrefl _)

theorem lt_irrefl_ranges (r : Range α) : r.lt r = false := by
  by_contra hc
  rw [Bool.not_eq_false, lt_iff_key] at hc
  exact absurd hc (lt_irrefl _)

theorem lt_trans_ranges {a b c : Range α} (h1 : a.lt b = true) (h2 : b.lt c = true) :
    a.lt c = true := by
  rw [lt_iff_key] at h1 h2 ⊢
  exact h1.trans h2

theorem lt_trichotomy_ranges (r o : Range α) :
    r.lt o = true ∨ r = o ∨ o.lt r = true := by
  rcases lt_trichotomy r.key o.key with h | h | h
  · exact Or.inl ((lt_iff_key r o).mpr h)
  · exact Or.inr (Or.inl (key_inj h))
  · exact Or.inr (Or.inr ((lt_iff_key o r).mpr h))

theorem eq_of_not_lt_not_lt {r o : Range α} (h1 : r.lt o = false) (h2 : o.lt r = false) :
    r = o := by
  rcases lt_trichotomy_ranges r o with h | h | h
  · rw [h1] at h; exact absurd h (by simp)
  · exact h
  · rw [h2] at h; exact absurd h (by simp)

/-- Transitivity of key-le along the not-greater-than relation used below. -/
theorem key_le_of_not_lt {r o : Range α} (h : o.lt r = false) : r.key ≤ o.key := by
  rcases lt_trichotomy r.key o.key with hk | hk | hk
  · exact le_of_lt hk
  · exact le_of_eq hk
  · rw [(lt_iff_key o r).mpr hk] at h; cases h

/-- Equality of first lex components is monotone: a smaller key never has a
larger (start, left-exclusivity) prefix. -/
theorem startLe_mono {r o : Range α} (h : r.key ≤ o.key) :
    obot r.start < obot o.start ∨ (obot r.start = obot o.start ∧
      (r.is_left_exclusive < o.is_left_exclusive ∨
        r.is_left_exclusive = o.is_left_exclusive)) := by
  rcases lt_or_eq_of_le h with h | h
  · rcases (key_lt_iff r o).mp h with h | ⟨h1, h⟩
    · exact Or.inl h
    · rcases h with h | ⟨h2, _⟩
      · exact Or.inr ⟨h1, Or.inl h⟩
      · exact Or.inr ⟨h1, Or.inr h2⟩
  · have := key_inj h
    subst this
    exact Or.inr ⟨rfl, Or.inr rfl⟩

theorem from_bounds_eta (b : RangeBoundaries) :
    RangeBoundaries.from_bounds b.is_left_exclusive b.is_right_exclusive = b := by
  cases b <;> rfl

theorem is_disjoint_comm (r o : Range α) : r.is_disjoint o = o.is_disjoint r := by
  unfold Range.is_disjoint
  cases hrs : r.start <;> cases hre : r.end_ <;> cases hos : o.start <;> cases hoe : o.end_ <;>
    simp [Bool.or_comm, Bool.and_comm]

/-!
Facts extracted from the constructor validity checks.
-/

theorem boundaries_II_iff (b : RangeBoundaries) :
    b = RangeBoundaries.INCLUSIVE_INCLUSIVE ↔
      b.is_left_exclusive = false ∧ b.is_right_exclusive = false := by
  cases b <;> simp [RangeBoundaries.is_left_exclusive, RangeBoundaries.is_right_exclusive]

theorem valid_left_excl {r : Range α} (h : r.valid = true) (hs : r.start = none) :
    r.is_left_exclusive = true := by
  simp only [Range.valid, hs, Bool.and_eq_true] at h
  exact h.1

theorem valid_right_excl {r : Range α} (h : r.valid = true) (he : r.end_ = none) :
    r.is_right_exclusive = true := by
  simp only [Range.valid, he, Bool.and_eq_true] at h
  exact h.2

theorem valid_le {r : Range α} (h : r.valid = true) {s e : α}
    (hs : r.start = some s) (he : r.end_ = some e) : s ≤ e := by
  simp only [Range.valid, hs, he, Bool.and_eq_true] at h
  have h2 := h.2
  by_cases hb : r.boundaries = RangeBoundaries.INCLUSIVE_INCLUSIVE
  · rw [if_pos hb] at h2; exact of_decide_eq_true h2
  · rw [if_neg hb] at h2; exact le_of_lt (of_decide_eq_true h2)

theorem valid_strict {r : Range α} (h : r.valid = true) {s e : α}
    (hs : r.start = some s) (he : r.end_ = some e)
    (hne : r.boundaries ≠ RangeBoundaries.INCLUSIVE_INCLUSIVE) : s < e := by
  simp only [Range.valid, hs, he, Bool.and_eq_true] at h
  have h2 := h.2
  rw [if_neg hne] at h2
  exact of_decide_eq_true h2

theorem valid_strict_of_left_excl {r : Range α} (h : r.valid = true) {s e : α}
    (hs : r.start = some s) (he : r.end_ = some e)
    (hb : r.is_left_exclusive = true) : s < e := by
  refine valid_strict h hs he (fun hc => ?_)
  rw [Range.is_left_exclusive, ((boundaries_II_iff _).mp hc).1] at hb
  cases hb

theorem valid_strict_of_right_excl {r : Range α} (h : r.valid = true) {s e : α}
    (hs : r.start = some s) (he : r.end_ = some e)
    (hb : r.is_right_exclusive = true) : s < e := by
  refine valid_strict h hs he (fun hc => ?_)
  rw [Range.is_right_exclusive, ((boundaries_II_iff _).mp hc).2] at hb
  cases hb

theorem valid_II_of_eq {r : Range α} (h : r.valid = true) {s e : α}
    (hs : r.start = some s) (he : r.end_ = some e) (hse : s = e) :
    r.is_left_exclusive = false ∧ r.is_right_exclusive = false := by
  by_cases hb : r.boundaries = RangeBoundaries.INCLUSIVE_INCLUSIVE
  · have := (boundaries_II_iff _).mp hb
    exact ⟨this.1, this.2⟩
  · exact absurd (valid_strict h hs he hb) (by rw [hse]; exact lt_irrefl e)

/-- A mk with the same fields as r and eta-expanded boundaries is r itself. -/
theorem mk_eta (r : Range α) :
    Range.mk r.start r.end_
      (RangeBoundaries.from_bounds r.is_left_exclusive r.is_right_exclusive) = r := by
  have hb := from_bounds_eta r.boundaries
  cases r
  simp_all [Range.is_left_exclusive, Range.is_right_exclusive]

theorem from_bounds_left (x y : Bool) :
    (RangeBoundaries.from_bounds x y).is_left_exclusive = x := by
  cases x <;> cases y <;> rfl

theorem from_bounds_right (x y : Bool) :
    (RangeBoundaries.from_bounds x y).is_right_exclusive = y := by
  cases x <;> cases y <;> rfl

theorem from_bounds_II_iff (x y : Bool) :
    RangeBoundaries.from_bounds x y = RangeBoundaries.INCLUSIVE_INCLUSIVE ↔
      x = false ∧ y = false := by
  cases x <;> cases y <;> simp [RangeBoundaries.from_bounds]

/-- Validity of a range assembled by the set operations, characterised in
terms of the two exclusivity flags passed to from_bounds. -/
theorem valid_mk_iff (s e : Option α) (x y : Bool) :
    (Range.mk s e (RangeBoundaries.from_bounds x y)).valid = true ↔
      ((s = none → x = true) ∧ (e = none → y = true) ∧
        (∀ sv ev, s = some sv → e = some ev →
          if x = false ∧ y = false then sv ≤ ev else sv < ev)) := by
  cases s <;> cases e <;>
    simp only [Range.valid, Bool.and_eq_true, from_bounds_left, from_bounds_right,
      Option.some.injEq, forall_eq_apply_imp_iff, forall_eq]
  · simp
  · simp
  · simp
  · rename_i sv ev
    constructor
    · rintro ⟨-, h2⟩
      refine ⟨by simp, by simp, ?_⟩
      intro sv2 ev2 hs he
      subst hs; subst he
      by_cases hII : RangeBoundaries.from_bounds x y = RangeBoundaries.INCLUSIVE_INCLUSIVE
      · rw [if_pos hII] at h2
        rw [if_pos ((from_bounds_II_iff x y).mp hII)]
        exact of_decide_eq_true h2
      · rw [if_neg hII] at h2
        rw [if_neg (fun hc => hII ((from_bounds_II_iff x y).mpr hc))]
        exact of_decide_eq_true h2
    · intro h2
      refine ⟨trivial, ?_⟩
      have h3 := h2.2.2 sv ev rfl rfl
      by_cases hII : RangeBoundaries.from_bounds x y = RangeBoundaries.INCLUSIVE_INCLUSIVE
      · rw [if_pos hII]
        rw [if_pos ((from_bounds_II_iff x y).mp hII)] at h3
        exact decide_eq_true h3
      · rw [if_neg hII]
        rw [if_neg (fun hc => hII ((from_bounds_II_iff x y).mpr hc))] at h3
        exact decide_eq_true h3

theorem ilb_some {r : Range α} {s : α} (hs : r.start = some s) (x : α) :
    r.is_inside_left_bound x =
      (if r.is_left_exclusive then decide (s < x) else decide (s ≤ x)) := by
  rw [Range.is_inside_left_bound, hs]

theorem irb_some {r : Range α} {e : α} (he : r.end_ = some e) (x : α) :
    r.is_inside_right_bound x =
      (if r.is_right_exclusive then decide (x < e) else decide (x ≤ e)) := by
  rw [Range.is_inside_right_bound, he]

/-- Unpacking a false is_disjoint into its two per-clause consequences. -/
theorem not_disjoint_parts {r o : Range α} (h : r.is_disjoint o = false) :
    (∀ e s, r.end_ = some e → o.start = some s →
      r.is_inside_right_bound s = true ∧ o.is_inside_left_bound e = true) ∧
    (∀ s e, r.start = some s → o.end_ = some e →
      r.is_inside_left_bound e = true ∧ o.is_inside_right_bound s = true) := by
  unfold Range.is_disjoint at h
  rw [Bool.or_eq_false_iff] at h
  obtain ⟨h1, h2⟩ := h
  constructor
  · intro e s hre hos
    simp only [hre, hos, Bool.not_eq_false', Bool.and_eq_true] at h1
    exact h1
  · intro s e hrs hoe
    simp only [hrs, hoe, Bool.not_eq_false', Bool.and_eq_true] at h2
    exact h2

/-- A valid range always overlaps itself (ranges are never empty). -/
theorem not_disjoint_self {r : Range α} (h : r.valid = true) :
    r.is_disjoint r = false := by
  unfold Range.is_disjoint
  cases hrs : r.start <;> cases hre : r.end_ <;> simp only []
  · rfl
  · rfl
  · rfl
  · rename_i s e
    have hle : s ≤ e := valid_le h hrs hre
    have hirb : r.is_inside_right_bound s = true := by
      rw [Range.is_inside_right_bound, hre]
      cases hb : r.is_right_exclusive
      · simpa using hle
      · simpa using valid_strict_of_right_excl h hrs hre hb
    have hilb : r.is_inside_left_bound e = true := by
      rw [Range.is_inside_left_bound, hrs]
      cases hb : r.is_left_exclusive
      · simpa using hle
      · simpa using valid_strict_of_left_excl h hrs hre hb
    simp [hirb, hilb]

/-!
The constructions performed inside intersection and union never raise for
valid operands: the validity of the assembled range follows from the
validity of the operands together with the non-disjointness (or touching)
facts guarding the construction.
-/

theorem intersection_core_ok {l rr : Range α} (hlv : l.valid = true)
    (hrrv : rr.valid = true) (hdis : l.is_disjoint rr = false) :
    ∃ u : Range α, Range.intersection_core l rr = .ok (some u) ∧ u.valid = true := by
  unfold Range.intersection_core
  cases hle_ : l.end_ with
  | none =>
    have heta : Range.mk rr.start rr.end_
        (RangeBoundaries.from_bounds rr.is_left_exclusive rr.is_right_exclusive) = rr :=
      mk_eta rr
    refine ⟨rr, ?_, hrrv⟩
    simp only [Range.make, heta, hrrv, if_true, Except.map]
  | some el =>
    by_cases hin : rr.is_inside_right_bound el = true
    · have hv : (Range.mk rr.start (some el)
          (RangeBoundaries.from_bounds rr.is_left_exclusive l.is_right_exclusive)).valid
          = true := by
        rw [valid_mk_iff]
        refine ⟨fun hnone => valid_left_excl hrrv hnone, by simp, ?_⟩
        intro sv ev hs he
        injection he with he2
        subst he2
        obtain ⟨hp1, hp2⟩ := (not_disjoint_parts hdis).1 el sv hle_ hs
        rw [ilb_some hs] at hp2
        rw [irb_some hle_] at hp1
        cases hrle : rr.is_left_exclusive
        · rw [hrle] at hp2
          simp only [if_false, decide_eq_true_eq, Bool.false_eq_true] at hp2
          rcases lt_or_eq_of_le hp2 with hstrict | heq2
          · split_ifs <;> [exact le_of_lt hstrict; exact hstrict]
          · cases hlre : l.is_right_exclusive
            · simp only [Bool.false_eq_true, false_and, and_true, and_self, if_true,
                if_pos (And.intro rfl rfl)]
              exact le_of_eq heq2
            · rw [hlre] at hp1
              simp only [if_true, decide_eq_true_eq] at hp1
              rw [heq2] at hp1
              exact absurd hp1 (lt_irrefl el)
        · rw [hrle] at hp2
          simp only [if_true, decide_eq_true_eq] at hp2
          rw [if_neg (by simp : ¬(true = false ∧ l.is_right_exclusive = false))]
          exact hp2
      refine ⟨_, ?_, hv⟩
      simp only [hle_, hin, if_true, Range.make, hv, Except.map]
    · have heta : Range.mk rr.start rr.end_
          (RangeBoundaries.from_bounds rr.is_left_exclusive rr.is_right_exclusive) = rr :=
        mk_eta rr
      refine ⟨rr, ?_, hrrv⟩
      rw [Bool.not_eq_true] at hin
      simp only [hle_, hin, Bool.false_eq_true, if_false, Range.make, heta, hrrv,
        if_true, Except.map]

theorem intersectionE_ok {r o : Range α} (hr : r.valid = true) (ho : o.valid = true) :
    ∃ x, r.intersectionE o = .ok x ∧ ∀ u, x = some u → u.valid = true := by
  unfold Range.intersectionE
  by_cases hd : r.is_disjoint o = true
  · rw [if_pos hd]
    exact ⟨none, rfl, by simp⟩
  · rw [Bool.not_eq_true] at hd
    rw [if_neg (by simp [hd])]
    by_cases hlt : r.lt o = true
    · rw [if_pos hlt]
      obtain ⟨u, hu, huv⟩ := intersection_core_ok hr ho hd
      exact ⟨some u, hu, fun v hv => by cases hv; exact huv⟩
    · rw [if_neg hlt]
      have hd2 : o.is_disjoint r = false := by rw [is_disjoint_comm]; exact hd
      obtain ⟨u, hu, huv⟩ := intersection_core_ok ho hr hd2
      exact ⟨some u, hu, fun v hv => by cases hv; exact huv⟩

theorem union_core_ok {l rr : Range α} (hlv : l.valid = true) (hrrv : rr.valid = true) :
    ∃ x, Range.union_core l rr = .ok x ∧ ∀ u, x = some u → u.valid = true := by
  unfold Range.union_core
  by_cases hg : (l.is_disjoint rr &&
      !(decide (l.end_ = rr.start) &&
        (l.is_right_inclusive || rr.is_left_inclusive))) = true
  · rw [if_pos hg]
    exact ⟨none, rfl, by simp⟩
  · rw [if_neg hg]
    rw [Bool.not_eq_true, Bool.and_eq_false_iff] at hg
    cases hre_ : rr.end_ with
    | none =>
      have hv : (Range.mk l.start none
          (RangeBoundaries.from_bounds l.is_left_exclusive rr.is_right_exclusive)).valid
          = true := by
        rw [valid_mk_iff]
        exact ⟨fun hnone => valid_left_excl hlv hnone,
          fun _ => valid_right_excl hrrv hre_, fun sv ev _ hev => by cases hev⟩
      refine ⟨some (Range.mk l.start none
        (RangeBoundaries.from_bounds l.is_left_exclusive rr.is_right_exclusive)), ?_, ?_⟩
      · simp only [hre_, Range.make, hv, if_true, Except.map]
      · intro v hv2
        injection hv2 with h
        rw [← h]
        exact hv
    | some er2 =>
      by_cases hin : l.is_inside_right_bound er2 = true
      · have heta : Range.mk l.start l.end_
            (RangeBoundaries.from_bounds l.is_left_exclusive l.is_right_exclusive) = l :=
          mk_eta l
        refine ⟨some l, ?_, fun v hv2 => by cases hv2; exact hlv⟩
        simp only [hre_, hin, if_true, Range.make, heta, hlv, Except.map]
      · have hv : (Range.mk l.start (some er2)
            (RangeBoundaries.from_bounds l.is_left_exclusive rr.is_right_exclusive)).valid
            = true := by
          rw [valid_mk_iff]
          refine ⟨fun hnone => valid_left_excl hlv hnone, by simp, ?_⟩
          intro sv ev hs he
          injection he with he2
          subst he2
          rcases hg with hdis | htouch
          · obtain ⟨hp1, hp2⟩ := (not_disjoint_parts hdis).2 sv er2 hs hre_
            rw [ilb_some hs] at hp1
            rw [irb_some hre_] at hp2
            cases hlle : l.is_left_exclusive
            · rw [hlle] at hp1
              simp only [if_false, decide_eq_true_eq, Bool.false_eq_true] at hp1
              rcases lt_or_eq_of_le hp1 with hstrict | heq2
              · split_ifs <;> [exact le_of_lt hstrict; exact hstrict]
              · cases hrre : rr.is_right_exclusive
                · simp only [if_pos (And.intro rfl rfl)]
                  exact le_of_eq heq2
                · rw [hrre] at hp2
                  simp only [if_true, decide_eq_true_eq] at hp2
                  rw [heq2] at hp2
                  exact absurd hp2 (lt_irrefl er2)
            · rw [hlle] at hp1
              simp only [if_true, decide_eq_true_eq] at hp1
              rw [if_neg (by simp : ¬(true = false ∧ rr.is_right_exclusive = false))]
              exact hp1
          · rw [Bool.not_eq_false', Bool.and_eq_true, decide_eq_true_eq] at htouch
            obtain ⟨hes, hflags⟩ := htouch
            cases hlend : l.end_ with
            | none =>
              rw [hlend] at hes
              have hlri : l.is_right_inclusive = false := by
                rw [Range.is_right_inclusive]
                have := valid_right_excl hlv hlend
                rw [Range.is_right_exclusive] at this
                rw [this]
                rfl
              have hrli : rr.is_left_inclusive = false := by
                rw [Range.is_left_inclusive]
                have := valid_left_excl hrrv hes.symm
                rw [Range.is_left_exclusive] at this
                rw [this]
                rfl
              rw [hlri, hrli] at hflags
              cases hflags
            | some m =>
              rw [hlend] at hes
              have hrs : rr.start = some m := hes.symm
              have h1 : sv ≤ m := valid_le hlv hs hlend
              have h2 : m ≤ er2 := valid_le hrrv hrs hre_
              rcases lt_or_eq_of_le (le_trans h1 h2) with hstrict | heq2
              · split_ifs <;> [exact le_of_lt hstrict; exact hstrict]
              · have hm1 : sv = m := le_antisymm h1 (by rw [heq2]; exact h2)
                have hm2 : m = er2 := by rw [← hm1]; exact heq2
                have hIIl := valid_II_of_eq hlv hs hlend hm1
                have hIIr := valid_II_of_eq hrrv hrs hre_ hm2
                rw [if_pos (And.intro hIIl.1 hIIr.2)]
                exact le_of_eq heq2
        refine ⟨some (Range.mk l.start (some er2)
          (RangeBoundaries.from_bounds l.is_left_exclusive rr.is_right_exclusive)), ?_, ?_⟩
        · rw [Bool.not_eq_true] at hin
          simp only [hre_, hin, Bool.false_eq_true, if_false, Range.make, hv, if_true,
            Except.map]
        · intro v hv2
          injection hv2 with h
          rw [← h]
          exact hv

theorem unionE_ok {r o : Range α} (hr : r.valid = true) (ho : o.valid = true) :
    ∃ x, r.unionE o = .ok x ∧ ∀ u, x = some u → u.valid = true := by
  unfold Range.unionE
  by_cases hlt : r.lt o = true
  · rw [if_pos hlt]
    exact union_core_ok hr ho
  · rw [if_neg hlt]
    exact union_core_ok ho hr

/-!
Characterisation of the ranges whose union is None: there is a gap between
the end of the sort-wise smaller range and the start of the larger one,
either a strict gap or an exactly-touching pair whose adjoining boundaries
are both exclusive.
-/

/-- Range a ends strictly before range b starts (allowing an exclusive
touch): this is exactly the configuration in which union returns None. -/
def gapTo (a b : Range α) : Prop :=
  ∃ ea sb, a.end_ = some ea ∧ b.start = some sb ∧
    (ea < sb ∨ (ea = sb ∧ a.is_right_exclusive = true ∧ b.is_left_exclusive = true))

theorem union_core_none_of_gap {l rr : Range α} (hg : gapTo l rr) :
    Range.union_core l rr = .ok none := by
  obtain ⟨ea, sb, hae, hbs, hcase⟩ := hg
  have hirb : l.is_inside_right_bound sb = false := by
    rw [irb_some hae]
    rcases hcase with h | ⟨h, hre, -⟩
    · split_ifs <;> simp [not_lt_of_gt h, not_le_of_gt h]
    · rw [hre, if_pos rfl]
      simp [h.symm]
  have hdisj : l.is_disjoint rr = true := by
    unfold Range.is_disjoint
    rw [hae, hbs]
    simp only [hirb, Bool.false_and, Bool.not_false, Bool.true_or]
  have htouch : (decide (l.end_ = rr.start) &&
      (l.is_right_inclusive || rr.is_left_inclusive)) = false := by
    rcases hcase with h | ⟨h, hre, hle⟩
    · have : l.end_ ≠ rr.start := by
        rw [hae, hbs]
        intro hc
        injection hc with hc2
        exact absurd hc2 (ne_of_lt h)
      simp [this]
    · have h1 : l.is_right_inclusive = false := by
        rw [Range.is_right_inclusive, Range.is_right_exclusive] at *
        rw [hre]
        rfl
      have h2 : rr.is_left_inclusive = false := by
        rw [Range.is_left_inclusive, Range.is_left_exclusive] at *
        rw [hle]
        rfl
      simp [h1, h2]
  unfold Range.union_core
  rw [if_pos (by rw [hdisj, htouch]; rfl)]

/-- The two clauses of a true is_disjoint. -/
theorem disjoint_cases {r o : Range α} (h : r.is_disjoint o = true) :
    (∃ e s, r.end_ = some e ∧ o.start = some s ∧
      (r.is_inside_right_bound s = false ∨ o.is_inside_left_bound e = false)) ∨
    (∃ s e, r.start = some s ∧ o.end_ = some e ∧
      (r.is_inside_left_bound e = false ∨ o.is_inside_right_bound s = false)) := by
  unfold Range.is_disjoint at h
  rw [Bool.or_eq_true] at h
  rcases h with h | h
  · left
    cases hre : r.end_ <;> cases hos : o.start <;> rw [hre, hos] at h
    · cases h
    · cases h
    · cases h
    · rename_i e s
      refine ⟨e, s, rfl, rfl, ?_⟩
      rw [Bool.not_eq_true', Bool.and_eq_false_iff] at h
      rcases h with h | h
      · exact Or.inl h
      · exact Or.inr h
  · right
    cases hrs : r.start <;> cases hoe : o.end_ <;> rw [hrs, hoe] at h
    · cases h
    · cases h
    · cases h
    · rename_i s e
      refine ⟨s, e, rfl, rfl, ?_⟩
      rw [Bool.not_eq_true', Bool.and_eq_false_iff] at h
      rcases h with h | h
      · exact Or.inl h
      · exact Or.inr h

theorem start_some_le_of_key_le {a b : Range α} (hk : a.key ≤ b.key) {sa : α}
    (hsa : a.start = some sa) : ∃ sb, b.start = some sb ∧ sa ≤ sb := by
  rcases startLe_mono hk with h | ⟨h, -⟩
  · rw [hsa] at h
    cases hbs : b.start
    · rw [hbs] at h
      exact absurd h (by simp [obot, not_lt_bot])
    · rw [hbs] at h
      rename_i sb
      refine ⟨sb, rfl, le_of_lt ?_⟩
      simpa [obot, WithBot.coe_lt_coe] using h
  · rw [hsa] at h
    cases hbs : b.start
    · rw [hbs] at h
      exact absurd h (by simp [obot])
    · rw [hbs] at h
      rename_i sb
      refine ⟨sb, rfl, le_of_eq ?_⟩
      simpa [obot, WithBot.coe_inj] using h

theorem left_excl_mono {a b : Range α} (hk : a.key ≤ b.key) (hs : a.start = b.start)
    (ha : a.is_left_exclusive = true) : b.is_left_exclusive = true := by
  rcases startLe_mono hk with h | ⟨-, h2⟩
  · rw [hs] at h
    exact absurd h (lt_irrefl _)
  · rcases h2 with h2 | h2
    · rw [Bool.lt_iff] at h2
      rw [ha] at h2
      exact absurd h2.1 (by simp)
    · rw [← h2]
      exact ha

/-- The second disjointness clause never fires between key-ordered valid
ranges: the earlier range always starts inside the left bound context of the
later one. -/
theorem clause2_bounds_of_key_le {a b : Range α} (hk : a.key ≤ b.key)
    (hbv : b.valid = true) {sa eb : α} (hsa : a.start = some sa)
    (heb : b.end_ = some eb) :
    a.is_inside_left_bound eb = true ∧ b.is_inside_right_bound sa = true := by
  obtain ⟨sb, hbs, hsasb⟩ := start_some_le_of_key_le hk hsa
  have hsbeb : sb ≤ eb := valid_le hbv hbs heb
  have hkey_sa_eb : sa ≤ eb := le_trans hsasb hsbeb
  constructor
  · rw [ilb_some hsa]
    cases hle : a.is_left_exclusive
    · simpa using hkey_sa_eb
    · rw [if_pos rfl]
      rcases lt_or_eq_of_le hkey_sa_eb with h | h
      · simpa using h
      · exfalso
        have h1 : sa = sb := le_antisymm hsasb (by rw [h]; exact hsbeb)
        have h2 : sb = eb := by rw [← h1]; exact h
        have hII := valid_II_of_eq hbv hbs heb h2
        have hbe : b.is_left_exclusive = true :=
          left_excl_mono hk (by rw [hsa, hbs, h1]) hle
        rw [hII.1] at hbe
        cases hbe
  · rw [irb_some heb]
    cases hre : b.is_right_exclusive
    · simpa using hkey_sa_eb
    · rw [if_pos rfl]
      rcases lt_or_eq_of_le hkey_sa_eb with h | h
      · simpa using h
      · exfalso
        have h1 : sa = sb := le_antisymm hsasb (by rw [h]; exact hsbeb)
        have h2 : sb = eb := by rw [← h1]; exact h
        have hII := valid_II_of_eq hbv hbs heb h2
        rw [hII.2] at hre
        cases hre

theorem map_some_ne_ok_none {E A : Type} (x : Except E A) :
    x.map some ≠ Except.ok (none : Option A) := by
  cases x <;> simp [Except.map]

theorem gap_of_union_core_none {l rr : Range α} (hk : l.key ≤ rr.key)
    (hlv : l.valid = true) (hrrv : rr.valid = true)
    (h : Range.union_core l rr = .ok none) : gapTo l rr := by
  unfold Range.union_core at h
  by_cases hg : (l.is_disjoint rr &&
      !(decide (l.end_ = rr.start) &&
        (l.is_right_inclusive || rr.is_left_inclusive))) = true
  · rw [Bool.and_eq_true, Bool.not_eq_true'] at hg
    obtain ⟨hdisj, htouch⟩ := hg
    rcases disjoint_cases hdisj with ⟨ea, sb, hae, hbs, hcl⟩ | ⟨sa, eb, has, hbe, hcl⟩
    · refine ⟨ea, sb, hae, hbs, ?_⟩
      have hgap : ea ≤ sb := by
        rcases hcl with hcl | hcl
        · rw [irb_some hae] at hcl
          cases hre : l.is_right_exclusive
          · rw [hre] at hcl
            simp only [if_false, decide_eq_true_eq, Bool.false_eq_true,
              decide_eq_false_iff_not, not_le] at hcl
            exact le_of_lt hcl
          · rw [hre] at hcl
            simp only [if_true, decide_eq_false_iff_not, not_lt] at hcl
            exact hcl
        · rw [ilb_some hbs] at hcl
          cases hle : rr.is_left_exclusive
          · rw [hle] at hcl
            simp only [if_false, Bool.false_eq_true, decide_eq_false_iff_not,
              not_le] at hcl
            exact le_of_lt hcl
          · rw [hle] at hcl
            simp only [if_true, decide_eq_false_iff_not, not_lt] at hcl
            exact hcl
      rcases lt_or_eq_of_le hgap with hstrict | heq
      · exact Or.inl hstrict
      · refine Or.inr ⟨heq, ?_, ?_⟩
        · have heq2 : l.end_ = rr.start := by rw [hae, hbs, heq]
          rw [heq2, decide_eq_true rfl, Bool.true_and, Bool.or_eq_false_iff] at htouch
          have := htouch.1
          rw [Range.is_right_inclusive, Bool.not_eq_false'] at this
          exact this
        · have heq2 : l.end_ = rr.start := by rw [hae, hbs, heq]
          rw [heq2, decide_eq_true rfl, Bool.true_and, Bool.or_eq_false_iff] at htouch
          have := htouch.2
          rw [Range.is_left_inclusive, Bool.not_eq_false'] at this
          exact this
    · exfalso
      obtain ⟨hb1, hb2⟩ := clause2_bounds_of_key_le hk hrrv has hbe
      rcases hcl with hcl | hcl
      · rw [hb1] at hcl; cases hcl
      · rw [hb2] at hcl; cases hcl
  · rw [if_neg hg] at h
    exact absurd h (map_some_ne_ok_none _)

/-- The (start, left-exclusivity) prefix of the sort key. -/
def startKey (a : Range α) : WithBot α ×ₗ Bool :=
  toLex (obot a.start, a.is_left_exclusive)

theorem startKey_mono {a b : Range α} (hk : a.key ≤ b.key) :
    startKey a ≤ startKey b := by
  unfold startKey
  rw [Prod.Lex.le_iff]
  rcases startLe_mono hk with h | ⟨h1, h2⟩
  · exact Or.inl h
  · rcases h2 with h2 | h2
    · exact Or.inr ⟨h1, le_of_lt h2⟩
    · exact Or.inr ⟨h1, le_of_eq h2⟩

theorem startKey_eq_parts {a b : Range α} (h : startKey a = startKey b) :
    a.start = b.start ∧ a.is_left_exclusive = b.is_left_exclusive := by
  unfold startKey at h
  rw [toLex_inj, Prod.mk.injEq] at h
  exact ⟨obot_inj.mp h.1, h.2⟩

theorem key_lt_of_startKey_lt {a b : Range α} (h : startKey a < startKey b) :
    a.key < b.key := by
  unfold startKey at h
  rw [Prod.Lex.lt_iff] at h
  rw [key_lt_iff]
  rcases h with h | ⟨h1, h2⟩
  · exact Or.inl h
  · exact Or.inr ⟨h1, Or.inl h2⟩

/-- The gap relation propagates to any range at least as large in the sort
order as its right-hand side. -/
theorem gap_trans {a b c : Range α} (hg : gapTo a b) (hk : b.key ≤ c.key) :
    gapTo a c := by
  obtain ⟨ea, sb, hae, hbs, hcase⟩ := hg
  obtain ⟨sc, hcs, hsbsc⟩ := start_some_le_of_key_le hk hbs
  refine ⟨ea, sc, hae, hcs, ?_⟩
  rcases hcase with h | ⟨h, hre, hle⟩
  · exact Or.inl (lt_of_lt_of_le h hsbsc)
  · rcases lt_or_eq_of_le hsbsc with h2 | h2
    · exact Or.inl (by rw [h]; exact h2)
    · refine Or.inr ⟨by rw [h, h2], hre, ?_⟩
      exact left_excl_mono hk (by rw [hbs, hcs, h2]) hle

/-- A gap between valid ranges forces a strictly smaller sort key on the
left: the ranges cannot share a (start, left-exclusivity) prefix. -/
theorem startKey_lt_of_gap {a b : Range α} (hav : a.valid = true)
    (hk : a.key ≤ b.key) (hg : gapTo a b) : startKey a < startKey b := by
  rcases lt_or_eq_of_le (startKey_mono hk) with h | h
  · exact h
  · exfalso
    obtain ⟨hs, -⟩ := startKey_eq_parts h
    obtain ⟨ea, sb, hae, hbs, hcase⟩ := hg
    have has : a.start = some sb := by rw [hs, hbs]
    have h1 : sb ≤ ea := valid_le hav has hae
    rcases hcase with h2 | ⟨h2, hre, -⟩
    · exact absurd (lt_of_le_of_lt h1 h2) (lt_irrefl sb)
    · have hII := valid_II_of_eq hav has hae (by rw [h2])
      rw [hII.2] at hre
      cases hre

/-!
The same facts lifted to the Option-valued union wrapper.
-/

theorem union_none_of_lt_gap {a b : Range α} (hlt : a.lt b = true) (hg : gapTo a b) :
    a.union b = none := by
  unfold Range.union Range.unionE
  rw [if_pos hlt, union_core_none_of_gap hg]

theorem union_eq_of_core {a b : Range α} :
    (a.lt b = true ∧ a.unionE b = Range.union_core a b) ∨
    (a.lt b = false ∧ a.unionE b = Range.union_core b a) := by
  unfold Range.unionE
  by_cases hlt : a.lt b = true
  · rw [if_pos hlt]; exact Or.inl ⟨hlt, rfl⟩
  · rw [if_neg hlt]; exact Or.inr ⟨Bool.not_eq_true _ ▸ Bool.of_not_eq_true hlt, rfl⟩

theorem union_some_valid {a b u : Range α} (ha : a.valid = true) (hb : b.valid = true)
    (h : a.union b = some u) : u.valid = true := by
  obtain ⟨x, hx, hxv⟩ := unionE_ok ha hb
  unfold Range.union at h
  rw [hx] at h
  exact hxv u (by cases x <;> simp_all)

theorem lt_and_gap_of_union_none {a b : Range α} (ha : a.valid = true)
    (hb : b.valid = true) (h : a.union b = none) :
    (a.lt b = true ∧ gapTo a b) ∨ (b.lt a = true ∧ gapTo b a) := by
  obtain ⟨x, hx, -⟩ := unionE_ok ha hb
  have hxn : a.unionE b = .ok none := by
    unfold Range.union at h
    rw [hx] at h
    cases x
    · exact hx
    · cases h
  unfold Range.unionE at hxn
  by_cases hlt : a.lt b = true
  · rw [if_pos hlt] at hxn
    exact Or.inl ⟨hlt, gap_of_union_core_none (le_of_lt ((lt_iff_key a b).mp hlt))
      ha hb hxn⟩
  · rw [if_neg hlt] at hxn
    rw [Bool.not_eq_true] at hlt
    have hba : b.lt a = true := by
      rcases lt_trichotomy_ranges a b with h2 | h2 | h2
      · rw [hlt] at h2; cases h2
      · exfalso
        subst h2
        have := not_disjoint_self ha
        unfold Range.union_core at hxn
        rw [if_neg (by rw [this]; simp)] at hxn
        exact map_some_ne_ok_none _ hxn
      · exact h2
    exact Or.inr ⟨hba, gap_of_union_core_none (key_le_of_not_lt hlt) hb ha hxn⟩

/-- The start data of a non-None union is that of its sort-wise smaller
operand. -/
theorem union_core_some_start {l rr u : Range α}
    (h : Range.union_core l rr = .ok (some u)) :
    u.start = l.start ∧ u.is_left_exclusive = l.is_left_exclusive := by
  unfold Range.union_core at h
  by_cases hg : (l.is_disjoint rr &&
      !(decide (l.end_ = rr.start) &&
        (l.is_right_inclusive || rr.is_left_inclusive))) = true
  · rw [if_pos hg] at h
    cases h
  · rw [if_neg hg] at h
    simp only [Range.make] at h
    set p : Option α × Bool := (match rr.end_ with
      | some e2 =>
          if l.is_inside_right_bound e2 then (l.end_, l.is_right_exclusive)
          else (rr.end_, rr.is_right_exclusive)
      | none => (rr.end_, rr.is_right_exclusive)) with hp
    by_cases hv : (Range.mk l.start p.1
        (RangeBoundaries.from_bounds l.is_left_exclusive p.2)).valid = true
    · rw [if_pos hv] at h
      simp only [Except.map, Except.ok.injEq, Option.some.injEq] at h
      rw [← h]
      exact ⟨rfl, by simp [Range.is_left_exclusive, from_bounds_left]⟩
    · rw [if_neg hv] at h
      cases h

theorem union_eq_some_ok {a b u : Range α} (h : a.union b = some u) :
    a.unionE b = .ok (some u) := by
  unfold Range.union at h
  cases hx : a.unionE b with
  | ok x =>
    rw [hx] at h
    exact congrArg Except.ok h
  | error e => rw [hx] at h; cases h

theorem disjoint_of_gap {a b : Range α} (hg : gapTo a b) : a.is_disjoint b = true := by
  obtain ⟨ea, sb, hae, hbs, hcase⟩ := hg
  have hirb : a.is_inside_right_bound sb = false := by
    rw [irb_some hae]
    rcases hcase with h | ⟨h, hre, -⟩
    · split_ifs <;> simp [not_lt_of_gt h, not_le_of_gt h]
    · rw [hre, if_pos rfl]
      simp [h.symm]
  unfold Range.is_disjoint
  rw [hae, hbs]
  simp only [hirb, Bool.false_and, Bool.not_false, Bool.true_or]

/-- Transcription of Range.difference (ranges.py lines 411-456), lower-part
guard: the part of self to the left of other exists. -/
def Range.lower_cond (r o : Range α) : Bool :=
  match r.start, o.start with
  | none, some _ => true
  | some sa, some sb => !(o.is_inside_left_bound sa) && r.is_inside_left_bound sb
  | _, _ => false

/-- Transcription of Range.difference upper-part guard. -/
def Range.upper_cond (r o : Range α) : Bool :=
  match r.end_, o.end_ with
  | none, some _ => true
  | some ea, some eb => !(o.is_inside_right_bound ea) && r.is_inside_right_bound eb
  | _, _ => false

/-!
RangeSet: the state of a RangeSet object is its internal _ranges list.
-/

/-- Left-to-right effectful map over Except, mirroring a Python loop that
propagates the first raised error. -/
def mapME {A B E : Type} (f : A → Except E B) : List A → Except E (List B)
  | [] => .ok []
  | a :: l =>
    match f a with
    | .error e => .error e
    | .ok b =>
      match mapME f l with
      | .error e => .error e
      | .ok bl => .ok (b :: bl)

instance {E A : Type} [DecidableEq E] [DecidableEq A] : DecidableEq (Except E A) :=
  fun a b =>
    match a, b with
    | .ok x, .ok y =>
        if h : x = y then isTrue (by rw [h])
        else isFalse (fun hc => h (by cases hc; rfl))
    | .error x, .error y =>
        if h : x = y then isTrue (by rw [h])
        else isFalse (fun hc => h (by cases hc; rfl))
    | .ok _, .error _ => isFalse (fun hc => by cases hc)
    | .error _, .ok _ => isFalse (fun hc => by cases hc)

namespace RangeSet

/-- The comparison used by the sort in _condense_range_list: Python sorted
uses __lt__; a stable sort with the reflexive relation le a b := not (b < a)
computes the same list (Range.__lt__ is a strict total order, so elements
unordered by it are equal and stability is vacuous). -/
def sortRel (a b : Range α) : Prop := Range.lt b a = false

instance sortRel_decidable : DecidableRel (sortRel (α := α)) :=
  fun a b => inferInstanceAs (Decidable (Range.lt b a = false))

instance sortRel_total : IsTotal (Range α) sortRel :=
  ⟨fun a b => by
    unfold sortRel
    rcases lt_trichotomy_ranges a b with h | h | h
    · exact Or.inl (lt_asymm_ranges h)
    · subst h
      exact Or.inl (lt_irrefl_ranges a)
    · exact Or.inr (lt_asymm_ranges h)⟩

instance sortRel_trans : IsTrans (Range α) sortRel :=
  ⟨fun a b c h1 h2 => by
    unfold sortRel at h1 h2 ⊢
    have k1 := key_le_of_not_lt h1
    have k2 := key_le_of_not_lt h2
    by_contra hc
    rw [Bool.not_eq_false] at hc
    have := (lt_iff_key c a).mp hc
    exact absurd (lt_of_lt_of_le this (le_trans k1 k2)) (lt_irrefl _)⟩

/-- One iteration of the loop in RangeSet._condense_range_list (ranges.py
lines 596-607).  Python appends to the end of the ranges list and pops the
last element back off; here the accumulator is kept reversed, so its head is
the most recently appended range. -/
def condense_step (acc : List (Range α)) (current : Range α) : List (Range α) :=
  match acc with
  | [] => [current]
  | previous :: rest =>
    match Range.union previous current with
    | some u => u :: rest
    | none => current :: previous :: rest

/-- Transcription of RangeSet._condense_range_list (ranges.py lines
585-608): sort, then merge each range into the most recent one when their
union is not None. -/
def condense_range_list (source : List (Range α)) : List (Range α) :=
  ((source.insertionSort sortRel).foldl condense_step []).reverse

/-- RangeSet.__init__ (ranges.py lines 562-567). -/
def ofList (source : List (Range α)) : List (Range α) :=
  condense_range_list source

/-- RangeSet.add (ranges.py lines 582-583). -/
def add (ranges : List (Range α)) (item : Range α) : List (Range α) :=
  condense_range_list (ranges ++ [item])

/-- RangeSet.union (ranges.py lines 689-690). -/
def union (r1 r2 : List (Range α)) : List (Range α) :=
  condense_range_list (r1 ++ r2)

/-- Transcription of Range.difference (ranges.py lines 411-456), returning
the list of ranges of the Python result: none models the None return, a
singleton models a plain Range, and the two-part case goes through the
RangeSet constructor, which condenses.  The Range constructions go through
make so a ValueError surfaces as the error value. -/
def differenceE (r o : Range α) : Except Range.Error (Option (List (Range α))) :=
  if r.is_disjoint o then .ok (some [r])
  else
    let lowE : Except Range.Error (Option (Range α)) :=
      if Range.lower_cond r o then
        (Range.make r.start o.start
          (RangeBoundaries.from_bounds r.is_left_exclusive o.is_left_inclusive)).map some
      else .ok none
    let upE : Except Range.Error (Option (Range α)) :=
      if Range.upper_cond r o then
        (Range.make o.end_ r.end_
          (RangeBoundaries.from_bounds o.is_right_inclusive r.is_right_exclusive)).map some
      else .ok none
    match lowE, upE with
    | .error e, _ => .error e
    | .ok _, .error e => .error e
    | .ok none, .ok none => .ok none
    | .ok (some lp), .ok (some up) => .ok (some (condense_range_list [lp, up]))
    | .ok (some lp), .ok none => .ok (some [lp])
    | .ok none, .ok (some up) => .ok (some [up])

/-- RangeSet.discard (ranges.py lines 610-625): subtract the item from each
member, collect all the parts, and re-condense. -/
def discardE (ranges : List (Range α)) (item : Range α) :
    Except Range.Error (List (Range α)) :=
  match mapME (fun r => differenceE r item) ranges with
  | .error e => .error e
  | .ok parts => .ok (condense_range_list (parts.flatMap (fun x => x.getD [])))

/-- RangeSet.intersection (ranges.py lines 674-687): pairwise intersections
in product order, dropping the None results, then the RangeSet constructor
condenses. -/
def intersectionE (r1 r2 : List (Range α)) :
    Except Range.Error (List (Range α)) :=
  match mapME (fun p => p.1.intersectionE p.2)
      (r1.flatMap (fun r => r2.map (fun s => (r, s)))) with
  | .error e => .error e
  | .ok inters => .ok (condense_range_list (inters.filterMap id))

/-- Errors RangeSet.pop can raise: the KeyError for an empty set, or a
ValueError escaping from the internal discard. -/
inductive PopError
  | keyError
  | valueError
deriving DecidableEq

/-- Transcription of RangeSet.pop (ranges.py lines 627-639). -/
def popE (ranges : List (Range α)) : Except PopError (Range α × List (Range α)) :=
  match ranges with
  | [] => .error .keyError
  | elem :: _ =>
    match discardE ranges elem with
    | .ok rest => .ok (elem, rest)
    | .error _ => .error .valueError

/-- Transcription of RangeSet.is_disjoint (ranges.py lines 659-663). -/
def is_disjoint (r1 r2 : List (Range α)) : Bool :=
  r1.all (fun a => r2.all (fun b => a.is_disjoint b))

/-- The raw gap list built by RangeSet.complement (ranges.py lines 713-762)
before it is passed to the RangeSet constructor: a range from None up to the
first member start when that is finite, one range per gap between
consecutive members, and a range from the last member end to None when that
is finite.  Each generated boundary is the negation of the neighbouring
member boundary. -/
def complement_list (ranges : List (Range α)) : List (Range α) :=
  match ranges with
  | [] => [Range.continuum α]
  | first :: rest =>
    let pre : List (Range α) :=
      match first.start with
      | some _ => [Range.mk none first.start
          (RangeBoundaries.from_bounds true (!first.is_left_exclusive))]
      | none => []
    let gaps : List (Range α) :=
      ((first :: rest).zip rest).map (fun p =>
        Range.mk p.1.end_ p.2.start
          (RangeBoundaries.from_bounds (!p.1.is_right_exclusive) (!p.2.is_left_exclusive)))
    let post : List (Range α) :=
      match ((first :: rest).getLast (List.cons_ne_nil first rest)).end_ with
      | some _ => [Range.mk ((first :: rest).getLast (List.cons_ne_nil first rest)).end_
          none (RangeBoundaries.from_bounds
            (!((first :: rest).getLast (List.cons_ne_nil first rest)).is_right_exclusive)
            true)]
      | none => []
    pre ++ gaps ++ post

/-- RangeSet.complement: the gap list is passed to the RangeSet constructor,
which condenses it. -/
def complement (ranges : List (Range α)) : List (Range α) :=
  condense_range_list (complement_list ranges)

end RangeSet

section SanitySets

example : RangeSet.condense_range_list
    [Range.mk (some (0 : Int)) (some 3) .INCLUSIVE_EXCLUSIVE,
     Range.mk (some 2) (some 4) .INCLUSIVE_EXCLUSIVE] =
    [Range.mk (some 0) (some 4) .INCLUSIVE_EXCLUSIVE] := by decide

example : RangeSet.condense_range_list
    [Range.mk (some (0 : Int)) (some 4) .INCLUSIVE_EXCLUSIVE,
     Range.mk (some 1) (some 5) .INCLUSIVE_EXCLUSIVE,
     Range.mk (some 7) (some 9) .INCLUSIVE_EXCLUSIVE] =
    [Range.mk (some 0) (some 5) .INCLUSIVE_EXCLUSIVE,
     Range.mk (some 7) (some 9) .INCLUSIVE_EXCLUSIVE] := by decide

example : RangeSet.complement
    [Range.mk (some (0 : Int)) (some 1) .INCLUSIVE_EXCLUSIVE,
     Range.mk (some 2) (some 3) .INCLUSIVE_EXCLUSIVE,
     Range.mk (some 4) none .INCLUSIVE_EXCLUSIVE] =
    [Range.mk none (some 0) .EXCLUSIVE_EXCLUSIVE,
     Range.mk (some 1) (some 2) .INCLUSIVE_EXCLUSIVE,
     Range.mk (some 3) (some 4) .INCLUSIVE_EXCLUSIVE] := by decide

example : RangeSet.popE ([] : List (Range Int)) = .error .keyError := by decide

example : RangeSet.popE
    [Range.mk (some (0 : Int)) (some 1) .INCLUSIVE_EXCLUSIVE,
     Range.mk (some 2) (some 3) .INCLUSIVE_EXCLUSIVE] =
    .ok (Range.mk (some 0) (some 1) .INCLUSIVE_EXCLUSIVE,
      [Range.mk (some 2) (some 3) .INCLUSIVE_EXCLUSIVE]) := by decide

end SanitySets

namespace RangeSet

/-- The start of a non-None union agrees with the sort-wise smaller operand
in the (start, left-exclusivity) prefix of the key. -/
theorem union_some_startKey {prev cur u : Range α}
    (hu : Range.union prev cur = some u)
    (hsk : startKey prev ≤ startKey cur) :
    startKey u = startKey prev := by
  have hok := union_eq_some_ok hu
  unfold Range.unionE at hok
  by_cases hlt : prev.lt cur = true
  · rw [if_pos hlt] at hok
    obtain ⟨h1, h2⟩ := union_core_some_start hok
    unfold startKey
    rw [h1, h2]
  · rw [if_neg hlt] at hok
    obtain ⟨h1, h2⟩ := union_core_some_start hok
    rw [Bool.not_eq_true] at hlt
    have hk2 : startKey cur ≤ startKey prev := startKey_mono (key_le_of_not_lt hlt)
    have heq : startKey cur = startKey prev := le_antisymm hk2 hsk
    unfold startKey at heq ⊢
    rw [h1, h2]
    exact heq

/-- Invariant of the condensing fold: the reversed accumulator is a chain of
strictly sorted, non-mergeable, valid ranges, and its head never starts
after any remaining input. -/
theorem condense_fold_invariant :
    ∀ (rem : List (Range α)) (acc : List (Range α)),
      (∀ x ∈ acc, x.valid = true) →
      acc.Chain' (fun x y => y.lt x = true ∧ gapTo y x) →
      (∀ y ∈ rem, y.valid = true) →
      rem.Pairwise sortRel →
      (∀ h t, acc = h :: t → ∀ y ∈ rem, startKey h ≤ startKey y) →
      (∀ x ∈ rem.foldl condense_step acc, x.valid = true) ∧
      (rem.foldl condense_step acc).Chain' (fun x y => y.lt x = true ∧ gapTo y x) := by
  intro rem
  induction rem with
  | nil => intro acc hval hchain _ _ _; exact ⟨hval, hchain⟩
  | cons cur rem2 ih =>
    intro acc hval hchain hremv hrempw hstart
    rw [List.foldl_cons]
    have hcurv : cur.valid = true := hremv cur (List.mem_cons_self cur rem2)
    have hrem2v : ∀ y ∈ rem2, y.valid = true :=
      fun y hy => hremv y (List.mem_cons_of_mem cur hy)
    have hrem2pw : rem2.Pairwise sortRel := (List.pairwise_cons.mp hrempw).2
    have hcur_le : ∀ y ∈ rem2, startKey cur ≤ startKey y := by
      intro y hy
      have := (List.pairwise_cons.mp hrempw).1 y hy
      unfold sortRel at this
      exact startKey_mono (key_le_of_not_lt this)
    cases acc with
    | nil =>
      exact ih [cur] (by simpa using hcurv) (List.chain'_singleton cur) hrem2v hrem2pw
        (by
          intro h t hc y hy
          injection hc with hc1 hc2
          subst hc1
          exact hcur_le y hy)
    | cons prev rest =>
      have hprevv : prev.valid = true := hval prev (List.mem_cons_self prev rest)
      have hrestv : ∀ x ∈ rest, x.valid = true :=
        fun x hx => hval x (List.mem_cons_of_mem prev hx)
      have hsk_pc : startKey prev ≤ startKey cur :=
        hstart prev rest rfl cur (List.mem_cons_self cur rem2)
      show _ ∧ (List.foldl condense_step (condense_step (prev :: rest) cur) rem2).Chain' _
      cases hu : Range.union prev cur with
      | some u =>
        have hstep : condense_step (prev :: rest) cur = u :: rest := by
          simp only [condense_step, hu]
        rw [hstep]
        have huv : u.valid = true := union_some_valid hprevv hcurv hu
        have hsku : startKey u = startKey prev := union_some_startKey hu hsk_pc
        refine ih (u :: rest) ?_ ?_ hrem2v hrem2pw ?_
        · intro x hx
          rcases List.mem_cons.mp hx with hx | hx
          · rw [hx]; exact huv
          · exact hrestv x hx
        · cases rest with
          | nil => exact List.chain'_singleton u
          | cons x rest2 =>
            rw [List.chain'_cons] at hchain ⊢
            obtain ⟨⟨hxlt, hxgap⟩, hchain2⟩ := hchain
            refine ⟨⟨?_, ?_⟩, hchain2⟩
            · have hxv : x.valid = true := hrestv x (List.mem_cons_self x rest2)
              have h1 : startKey x < startKey prev :=
                startKey_lt_of_gap hxv (le_of_lt ((lt_iff_key x prev).mp hxlt)) hxgap
              rw [← hsku] at h1
              exact (lt_iff_key x u).mpr (key_lt_of_startKey_lt h1)
            · obtain ⟨hus, hule⟩ := startKey_eq_parts hsku
              obtain ⟨ex, sp, hxe, hps, hcase⟩ := hxgap
              refine ⟨ex, sp, hxe, by rw [hus, hps], ?_⟩
              rcases hcase with h | ⟨h, hre, hle⟩
              · exact Or.inl h
              · exact Or.inr ⟨h, hre, by rw [hule]; exact hle⟩
        · intro h t hc y hy
          injection hc with hc1 hc2
          subst hc1
          rw [hsku]
          exact hstart prev rest rfl y (List.mem_cons_of_mem cur hy)
      | none =>
        have hstep : condense_step (prev :: rest) cur = cur :: prev :: rest := by
          simp only [condense_step, hu]
        rw [hstep]
        have hR : prev.lt cur = true ∧ gapTo prev cur := by
          rcases lt_and_gap_of_union_none hprevv hcurv hu with h | ⟨hlt2, hgap2⟩
          · exact h
          · exfalso
            have h1 : startKey cur < startKey prev :=
              startKey_lt_of_gap hcurv (le_of_lt ((lt_iff_key cur prev).mp hlt2)) hgap2
            exact absurd (lt_of_le_of_lt hsk_pc h1) (lt_irrefl _)
        refine ih (cur :: prev :: rest) ?_ ?_ hrem2v hrem2pw ?_
        · intro x hx
          rcases List.mem_cons.mp hx with hx | hx
          · rw [hx]; exact hcurv
          · exact hval x hx
        · rw [List.chain'_cons]
          exact ⟨hR, hchain⟩
        · intro h t hc y hy
          injection hc with hc1 hc2
          subst hc1
          exact hcur_le y hy

/-- The result of _condense_range_list on valid inputs: every member is
valid and the members are strictly sorted with pairwise None unions. -/
theorem condense_invariant (source : List (Range α))
    (hv : ∀ x ∈ source, x.valid = true) :
    (∀ x ∈ condense_range_list source, x.valid = true) ∧
    (condense_range_list source).Pairwise
      (fun a b => a.lt b = true ∧ gapTo a b) := by
  unfold condense_range_list
  have hsortv : ∀ y ∈ source.insertionSort sortRel, y.valid = true :=
    fun y hy => hv y ((List.mem_insertionSort sortRel).mp hy)
  have hsorted : (source.insertionSort sortRel).Pairwise sortRel :=
    List.sorted_insertionSort sortRel source
  obtain ⟨hval, hchain⟩ := condense_fold_invariant (source.insertionSort sortRel) []
    (by simp) List.chain'_nil hsortv hsorted (by intro h t hc; cases hc)
  constructor
  · intro x hx
    exact hval x (List.mem_reverse.mp hx)
  · have hchain2 : ((source.insertionSort sortRel).foldl condense_step []).reverse.Chain'
        (fun a b => a.lt b = true ∧ gapTo a b) := by
      rw [List.chain'_reverse]
      exact hchain
    haveI : IsTrans (Range α) (fun a b => a.lt b = true ∧ gapTo a b) :=
      ⟨fun a b c h1 h2 =>
        ⟨lt_trans_ranges h1.1 h2.1, gap_trans h1.2 (le_of_lt ((lt_iff_key b c).mp h2.1))⟩⟩
    exact List.chain'_iff_pairwise.mp hchain2

end RangeSet

/-!
Commutativity of the two binary operations, used both on its own and to
state the RangeSet invariant symmetrically.
-/

theorem unionE_comm (a b : Range α) : a.unionE b = b.unionE a := by
  unfold Range.unionE
  rcases lt_trichotomy_ranges a b with h | h | h
  · rw [if_pos h, if_neg (by rw [lt_asymm_ranges h]; simp)]
  · subst h
    rfl
  · rw [if_neg (by rw [lt_asymm_ranges h]; simp), if_pos h]

theorem union_comm_ranges (a b : Range α) : a.union b = b.union a := by
  unfold Range.union
  rw [unionE_comm]

theorem intersectionE_comm (a b : Range α) : a.intersectionE b = b.intersectionE a := by
  unfold Range.intersectionE
  rw [is_disjoint_comm]
  by_cases hd : b.is_disjoint a = true
  · rw [if_pos hd, if_pos hd]
  · rw [if_neg hd, if_neg hd]
    rcases lt_trichotomy_ranges a b with h | h | h
    · rw [if_pos h, if_neg (by rw [lt_asymm_ranges h]; simp)]
    · subst h
      rfl
    · rw [if_neg (by rw [lt_asymm_ranges h]; simp), if_pos h]

theorem intersection_comm_ranges (a b : Range α) :
    a.intersection b = b.intersection a := by
  unfold Range.intersection
  rw [intersectionE_comm]

/-!
Error-freedom and validity for difference and the derived RangeSet
operations.
-/

theorem mapME_ok {A B : Type} (f : A → Except Range.Error B) (P : B → Prop) :
    ∀ l : List A, (∀ a ∈ l, ∃ b, f a = .ok b ∧ P b) →
      ∃ bl, mapME f l = .ok bl ∧ ∀ b ∈ bl, P b := by
  intro l
  induction l with
  | nil => intro _; exact ⟨[], rfl, by simp⟩
  | cons a l2 ih =>
    intro h
    obtain ⟨b, hb, hPb⟩ := h a (List.mem_cons_self a l2)
    obtain ⟨bl, hbl, hPbl⟩ := ih (fun x hx => h x (List.mem_cons_of_mem a hx))
    refine ⟨b :: bl, ?_, ?_⟩
    · unfold mapME
      rw [hb, hbl]
    · intro x hx
      rcases List.mem_cons.mp hx with hx | hx
      · rw [hx]; exact hPb
      · exact hPbl x hx

theorem differenceE_ok {r o : Range α} (hr : r.valid = true) (ho : o.valid = true) :
    ∃ x, RangeSet.differenceE r o = .ok x ∧
      ∀ l, x = some l → ∀ p ∈ l, p.valid = true := by
  unfold RangeSet.differenceE
  by_cases hd : r.is_disjoint o = true
  · rw [if_pos hd]
    refine ⟨some [r], rfl, ?_⟩
    intro l hl p hp
    injection hl with hl2
    rw [← hl2] at hp
    rcases List.mem_singleton.mp hp with h
    rw [h]
    exact hr
  · rw [if_neg hd]
    have hlow : ∀ hc : Range.lower_cond r o = true,
        (Range.mk r.start o.start
          (RangeBoundaries.from_bounds r.is_left_exclusive o.is_left_inclusive)).valid
          = true := by
      intro hc
      rw [valid_mk_iff]
      unfold Range.lower_cond at hc
      refine ⟨fun hnone => valid_left_excl hr hnone, ?_, ?_⟩
      · intro hnone
        rw [hnone] at hc
        cases hrs : r.start <;> rw [hrs] at hc <;> cases hc
      · intro sv ev hs he
        simp only [hs, he, Bool.and_eq_true, Bool.not_eq_true'] at hc
        obtain ⟨hc1, hc2⟩ := hc
        rw [ilb_some he] at hc1
        rw [ilb_some hs] at hc2
        cases hole : o.is_left_exclusive
        · rw [hole] at hc1
          simp only [if_false, Bool.false_eq_true, decide_eq_false_iff_not, not_le] at hc1
          rw [if_neg (by
            rintro ⟨-, hcc⟩
            have hole2 : o.boundaries.is_left_exclusive = false := hole
            simp [Range.is_left_inclusive, hole2] at hcc)]
          exact hc1
        · rw [hole] at hc1
          simp only [if_true, decide_eq_false_iff_not, not_lt] at hc1
          rcases lt_or_eq_of_le hc1 with hstrict | heq
          · split_ifs <;> [exact le_of_lt hstrict; exact hstrict]
          · have hrle : r.is_left_exclusive = false := by
              cases hrle2 : r.is_left_exclusive
              · rfl
              · rw [hrle2] at hc2
                simp only [if_true, decide_eq_true_eq] at hc2
                rw [heq] at hc2
                exact absurd hc2 (lt_irrefl ev)
            rw [if_pos ⟨hrle, by
              have hole2 : o.boundaries.is_left_exclusive = true := hole
              simp [Range.is_left_inclusive, hole2]⟩]
            exact le_of_eq heq
    have hup : ∀ hc : Range.upper_cond r o = true,
        (Range.mk o.end_ r.end_
          (RangeBoundaries.from_bounds o.is_right_inclusive r.is_right_exclusive)).valid
          = true := by
      intro hc
      rw [valid_mk_iff]
      unfold Range.upper_cond at hc
      refine ⟨?_, fun hnone => valid_right_excl hr hnone, ?_⟩
      · intro hnone
        rw [hnone] at hc
        cases hre : r.end_ <;> rw [hre] at hc <;> cases hc
      · intro sv ev hs he
        simp only [hs, he, Bool.and_eq_true, Bool.not_eq_true'] at hc
        obtain ⟨hc1, hc2⟩ := hc
        rw [irb_some hs] at hc1
        rw [irb_some he] at hc2
        cases hore : o.is_right_exclusive
        · rw [hore] at hc1
          simp only [if_false, Bool.false_eq_true, decide_eq_false_iff_not, not_le] at hc1
          rw [if_neg (by
            rintro ⟨hcc, -⟩
            have hore2 : o.boundaries.is_right_exclusive = false := hore
            simp [Range.is_right_inclusive, hore2] at hcc)]
          exact hc1
        · rw [hore] at hc1
          simp only [if_true, decide_eq_false_iff_not, not_lt] at hc1
          rcases lt_or_eq_of_le hc1 with hstrict | heq
          · split_ifs <;> [exact le_of_lt hstrict; exact hstrict]
          · have hrre : r.is_right_exclusive = false := by
              cases hrre2 : r.is_right_exclusive
              · rfl
              · rw [hrre2] at hc2
                simp only [if_true, decide_eq_true_eq] at hc2
                rw [heq] at hc2
                exact absurd hc2 (lt_irrefl ev)
            rw [if_pos ⟨by
              have hore2 : o.boundaries.is_right_exclusive = true := hore
              simp [Range.is_right_inclusive, hore2], hrre⟩]
            exact le_of_eq heq
    by_cases hlc : Range.lower_cond r o = true
    · have hlv2 := hlow hlc
      rw [if_pos hlc]
      by_cases huc : Range.upper_cond r o = true
      · have huv2 := hup huc
        rw [if_pos huc]
        simp only [Range.make, hlv2, huv2, if_true, Except.map]
        refine ⟨_, rfl, ?_⟩
        intro l hl p hp
        injection hl with hl2
        rw [← hl2] at hp
        exact (RangeSet.condense_invariant _ (by
          intro x hx
          rcases List.mem_cons.mp hx with hx | hx
          · rw [hx]; exact hlv2
          · rcases List.mem_singleton.mp hx with hx
            rw [hx]; exact huv2)).1 p hp
      · rw [if_neg huc]
        simp only [Range.make, hlv2, if_true, Except.map]
        refine ⟨_, rfl, ?_⟩
        intro l hl p hp
        injection hl with hl2
        rw [← hl2] at hp
        rcases List.mem_singleton.mp hp with h
        rw [h]
        exact hlv2
    · rw [if_neg hlc]
      by_cases huc : Range.upper_cond r o = true
      · have huv2 := hup huc
        rw [if_pos huc]
        simp only [Range.make, huv2, if_true, Except.map]
        refine ⟨_, rfl, ?_⟩
        intro l hl p hp
        injection hl with hl2
        rw [← hl2] at hp
        rcases List.mem_singleton.mp hp with h
        rw [h]
        exact huv2
      · rw [if_neg huc]
        exact ⟨none, rfl, fun l hl => by cases hl⟩

theorem mapME_ok_elems {A B : Type} {f : A → Except Range.Error B} :
    ∀ {l : List A} {bl : List B}, mapME f l = .ok bl →
      ∀ b ∈ bl, ∃ a ∈ l, f a = .ok b := by
  intro l
  induction l with
  | nil =>
    intro bl h b hb
    unfold mapME at h
    injection h with h2
    rw [← h2] at hb
    cases hb
  | cons a l2 ih =>
    intro bl h b hb
    unfold mapME at h
    cases hfa : f a with
    | error e => rw [hfa] at h; cases h
    | ok b0 =>
      rw [hfa] at h
      cases hrec : mapME f l2 with
      | error e => rw [hrec] at h; cases h
      | ok bl2 =>
        rw [hrec] at h
        injection h with h2
        rw [← h2] at hb
        rcases List.mem_cons.mp hb with hb | hb
        · exact ⟨a, List.mem_cons_self a l2, by rw [hfa, hb]⟩
        · obtain ⟨a2, ha2, hfa2⟩ := ih hrec b hb
          exact ⟨a2, List.mem_cons_of_mem a ha2, hfa2⟩

namespace RangeSet

/-- The RangeSet data invariant stated by the specification: members are
sorted (strictly, by the Range ordering), pairwise disjoint, and pairwise
non-mergeable in either direction. -/
def invariant (ranges : List (Range α)) : Prop :=
  (∀ x ∈ ranges, x.valid = true) ∧
  ranges.Pairwise (fun a b => a.lt b = true ∧ a.is_disjoint b = true ∧
    Range.union a b = none ∧ Range.union b a = none)

/-- Condensing any list of valid ranges establishes the invariant. -/
theorem condense_establishes (source : List (Range α))
    (hv : ∀ x ∈ source, x.valid = true) :
    invariant (condense_range_list source) := by
  obtain ⟨h1, h2⟩ := condense_invariant source hv
  refine ⟨h1, ?_⟩
  refine h2.imp ?_
  intro a b hab
  obtain ⟨hlt, hgap⟩ := hab
  have hun : Range.union a b = none := union_none_of_lt_gap hlt hgap
  exact ⟨hlt, disjoint_of_gap hgap, hun, by rw [union_comm_ranges]; exact hun⟩

theorem ofList_invariant (source : List (Range α))
    (hv : ∀ x ∈ source, x.valid = true) : invariant (ofList source) :=
  condense_establishes source hv

theorem add_invariant (ranges : List (Range α)) (item : Range α)
    (hv : ∀ x ∈ ranges, x.valid = true) (hi : item.valid = true) :
    invariant (add ranges item) := by
  refine condense_establishes _ ?_
  intro x hx
  rcases List.mem_append.mp hx with hx | hx
  · exact hv x hx
  · rcases List.mem_singleton.mp hx with h
    rw [h]
    exact hi

theorem union_invariant (r1 r2 : List (Range α))
    (h1 : ∀ x ∈ r1, x.valid = true) (h2 : ∀ x ∈ r2, x.valid = true) :
    invariant (union r1 r2) := by
  refine condense_establishes _ ?_
  intro x hx
  rcases List.mem_append.mp hx with hx | hx
  · exact h1 x hx
  · exact h2 x hx

theorem discardE_invariant (ranges : List (Range α)) (item : Range α)
    (hv : ∀ x ∈ ranges, x.valid = true) (hi : item.valid = true) :
    ∃ res, discardE ranges item = .ok res ∧ invariant res := by
  obtain ⟨parts, hparts, hpartsP⟩ := mapME_ok (fun r => differenceE r item)
    (fun x => ∀ p ∈ x.getD [], p.valid = true) ranges
    (by
      intro a ha
      obtain ⟨x, hx, hxP⟩ := differenceE_ok (hv a ha) hi
      refine ⟨x, hx, ?_⟩
      cases x with
      | none => simp
      | some l =>
        intro p hp
        exact hxP l rfl p (by simpa using hp))
  refine ⟨condense_range_list (parts.flatMap (fun x => x.getD [])), ?_, ?_⟩
  · unfold discardE
    rw [hparts]
  · refine condense_establishes _ ?_
    intro x hx
    obtain ⟨part, hpart, hxin⟩ := List.mem_flatMap.mp hx
    exact hpartsP part hpart x hxin

theorem intersectionE_invariant (r1 r2 : List (Range α))
    (h1 : ∀ x ∈ r1, x.valid = true) (h2 : ∀ x ∈ r2, x.valid = true) :
    ∃ res, intersectionE r1 r2 = .ok res ∧ invariant res := by
  obtain ⟨inters, hinters, hintersP⟩ := mapME_ok (fun p => p.1.intersectionE p.2)
    (fun x => ∀ u, x = some u → u.valid = true)
    (r1.flatMap (fun r => r2.map (fun s => (r, s))))
    (by
      intro p hp
      obtain ⟨r, hr, hp2⟩ := List.mem_flatMap.mp hp
      obtain ⟨s, hs, hp3⟩ := List.mem_map.mp hp2
      obtain ⟨x, hx, hxP⟩ := intersectionE_ok (r := p.1) (o := p.2)
        (by rw [← hp3]; exact h1 r hr) (by rw [← hp3]; exact h2 s hs)
      exact ⟨x, hx, hxP⟩)
  refine ⟨condense_range_list (inters.filterMap id), ?_, ?_⟩
  · unfold intersectionE
    rw [hinters]
  · refine condense_establishes _ ?_
    intro x hx
    obtain ⟨y, hy, hxy⟩ := List.mem_filterMap.mp hx
    exact hintersP y hy x (by simpa using hxy)

end RangeSet

/-!
FiniteDateRange and FiniteDatetimeRange.  Dates are embedded as proleptic
ordinal day numbers (datetime.date.toordinal), datetimes as integer
timestamps; both are linearly ordered integers.
-/

/-- Ordinal of datetime.date.min. -/
def DATE_MIN : Int := 1

/-- Ordinal of datetime.date.max, date(9999, 12, 31). -/
def DATE_MAX : Int := 3652059

/-- One day earlier, with the OverflowError swallowed: the assignment in
FiniteDateRange.is_disjoint (ranges.py 1056-1059) keeps the original value
when the subtraction leaves the representable dates. -/
def date_sub_day (d : Int) : Int := if d - 1 < DATE_MIN then d else d - 1

/-- One day later, saturating the same way (ranges.py 1062-1066). -/
def date_add_day (d : Int) : Int := if DATE_MAX < d + 1 then d else d + 1

namespace FiniteDateRange

/-- The data of FiniteDateRange(start, end): the constructor forces
INCLUSIVE_INCLUSIVE boundaries (ranges.py 1012-1016). -/
def fdr (s e : Int) : Range Int :=
  Range.mk (some s) (some e) RangeBoundaries.INCLUSIVE_INCLUSIVE

/-- Transcription of FiniteDateRange.is_disjoint (ranges.py 1050-1069):
extend the other range outward by one day at each inclusive bound, then
delegate to the base Range.is_disjoint. -/
def is_disjoint (r o : Range Int) : Bool :=
  let other_start : Option Int :=
    match o.start, o.is_left_inclusive with
    | some s, true => some (date_sub_day s)
    | s, _ => s
  let other_end : Option Int :=
    match o.end_, o.is_right_inclusive with
    | some e, true => some (date_add_day e)
    | e, _ => e
  r.is_disjoint (Range.mk other_start other_end o.boundaries)

/-- Transcription of FiniteDateRange.intersection (ranges.py 1018-1031):
the base algorithm runs with the dynamically dispatched is_disjoint above,
and the ValueError raised by the final Range construction on adjacent
operands is caught and turned into None. -/
def intersection (r o : Range Int) : Option (Range Int) :=
  if is_disjoint r o then none
  else
    match (if r.lt o then Range.intersection_core r o
           else Range.intersection_core o r) with
    | .ok x => x
    | .error _ => none

/-- Transcription of FiniteDateRange.union (ranges.py 1033-1048): the base
Range.union body with the dispatched is_disjoint, catching the construction
ValueError as None. -/
def union (r o : Range Int) : Option (Range Int) :=
  let range_l := if r.lt o then r else o
  let range_r := if r.lt o then o else r
  if is_disjoint range_l range_r &&
     !(decide (range_l.end_ = range_r.start) &&
       (range_l.is_right_inclusive || range_r.is_left_inclusive)) then none
  else
    let er : Option Int × Bool :=
      match range_r.end_ with
      | some e2 =>
          if range_l.is_inside_right_bound e2 then (range_l.end_, range_l.is_right_exclusive)
          else (range_r.end_, range_r.is_right_exclusive)
      | none => (range_r.end_, range_r.is_right_exclusive)
    match Range.make range_l.start er.1
        (RangeBoundaries.from_bounds range_l.is_left_exclusive er.2) with
    | .ok u => some u
    | .error _ => none

end FiniteDateRange

namespace FiniteDatetimeRange

/-- Transcription of FiniteDatetimeRange.__lt__ (ranges.py 842-849): the
receiver is a FiniteDatetimeRange, so its start is always a finite
datetime, embedded as the integer selfStart; only starts are compared, and
the method returns False whenever the other start is absent. -/
def lt (selfStart : Int) (o : Range Int) : Bool :=
  match o.start with
  | none => false
  | some os => decide (selfStart < os)

/-- Transcription of the FiniteDatetimeRange.intersection fast path
(ranges.py 857-865) for two FiniteDatetimeRange operands, on their
(start, end) data, with the left-right selection inlined in each branch of
the start comparison. -/
def intersection (s1 e1 s2 e2 : Int) : Option (Int × Int) :=
  if s1 < s2 then
    (if e1 ≤ s2 then none else some (s2, min e2 e1))
  else
    (if e2 ≤ s1 then none else some (s1, min e1 e2))

/-- Transcription of the FiniteDatetimeRange.union fast path (ranges.py
889-897), with the same inlining. -/
def union (s1 e1 s2 e2 : Int) : Option (Int × Int) :=
  if s1 < s2 then
    (if e1 < s2 then none else some (s1, max e1 e2))
  else
    (if e2 < s1 then none else some (s2, max e2 e1))

end FiniteDatetimeRange

/-- The __slots__ tuple defined on the Range class itself (ranges.py
153-161). -/
def Range.slots : List String :=
  ["start", "end", "boundaries", "_is_left_exclusive", "_is_left_inclusive",
   "_is_right_exclusive", "_is_right_inclusive"]

/-- The classes of the Range hierarchy. -/
inductive RangeClass
  | Range
  | FiniteRange
  | HalfFiniteRange
  | FiniteDateRange
  | FiniteDatetimeRange
deriving DecidableEq

/-- The __slots__ tuple each class declares for itself: Range declares the
seven slots, and every subclass declares an empty tuple (ranges.py 494,
522, 834, 1010). -/
def RangeClass.own_slots : RangeClass → List String
  | .Range => Range.slots
  | _ => []

/-- Outcome of assigning to an attribute of an instance. -/
inductive SetattrOutcome
  | attributeError
  | mutated
deriving DecidableEq

/-- Transcription of Range.__setattr__ (ranges.py 245-249) together with
the object.__setattr__ it falls through to: the guard consults
type(self).__slots__, the slots tuple of the instance's dynamic class, and
raises AttributeError when the name is in it; otherwise object.__setattr__
looks the name up among the slot descriptors of the whole class hierarchy
(the descriptors created by Range.__slots__ are inherited by every
subclass) and mutates the instance when one exists, raising AttributeError
for an unknown name. -/
def setattr_outcome (cls : RangeClass) (name : String) : SetattrOutcome :=
  if name ∈ cls.own_slots then .attributeError
  else if name ∈ Range.slots then .mutated
  else .attributeError

/-- Ordinal day number of January d in a year far away from the date
limits, so the saturating one-day adjustments are exact. -/
def jan (d : Int) : Int := 738000 + d

section SanityDates

example : FiniteDateRange.union (FiniteDateRange.fdr (jan 1) (jan 2))
    (FiniteDateRange.fdr (jan 3) (jan 4)) =
    some (FiniteDateRange.fdr (jan 1) (jan 4)) := by decide

example : FiniteDateRange.union (FiniteDateRange.fdr (jan 1) (jan 2))
    (FiniteDateRange.fdr (jan 4) (jan 5)) = none := by decide

example : FiniteDateRange.intersection (FiniteDateRange.fdr (jan 1) (jan 2))
    (FiniteDateRange.fdr (jan 3) (jan 4)) = none := by decide

example : FiniteDateRange.is_disjoint (FiniteDateRange.fdr (jan 1) (jan 2))
    (FiniteDateRange.fdr (jan 3) (jan 4)) = false := by decide

example : FiniteDateRange.is_disjoint (FiniteDateRange.fdr (jan 1) (jan 2))
    (FiniteDateRange.fdr (jan 4) (jan 5)) = true := by decide

example : FiniteDatetimeRange.intersection 0 3 1 4 = some (1, 3) := by decide

end SanityDates

/-!
The condensing pass is the identity on a list that already satisfies the
sorted-with-gaps shape, and RangeSet.pop returns the head of the internal
list, removing exactly it.
-/

/-- A sorted non-mergeable pair of valid ranges has a gap in sort order. -/
theorem gap_of_invariant_pair {a b : Range α} (ha : a.valid = true)
    (hb : b.valid = true) (hlt : a.lt b = true)
    (hu : Range.union a b = none) : gapTo a b := by
  rcases lt_and_gap_of_union_none ha hb hu with ⟨-, hg⟩ | ⟨hlt2, -⟩
  · exact hg
  · rw [lt_asymm_ranges hlt] at hlt2
    cases hlt2

/-- The lower-part guard of Range.difference is false when the operands
coincide. -/
theorem lower_cond_self (r : Range α) : Range.lower_cond r r = false := by
  unfold Range.lower_cond
  cases hs : r.start with
  | none => rfl
  | some s =>
    show (!(r.is_inside_left_bound s) && r.is_inside_left_bound s) = false
    cases r.is_inside_left_bound s <;> rfl

/-- The upper-part guard of Range.difference is false when the operands
coincide. -/
theorem upper_cond_self (r : Range α) : Range.upper_cond r r = false := by
  unfold Range.upper_cond
  cases he : r.end_ with
  | none => rfl
  | some e =>
    show (!(r.is_inside_right_bound e) && r.is_inside_right_bound e) = false
    cases r.is_inside_right_bound e <;> rfl

/-- Subtracting a valid range from itself removes it entirely (the None
return of Range.difference). -/
theorem differenceE_self {r : Range α} (hr : r.valid = true) :
    RangeSet.differenceE r r = .ok none := by
  unfold RangeSet.differenceE
  simp [not_disjoint_self hr, lower_cond_self, upper_cond_self]

/-- Subtracting a disjoint range is the identity (the early return of
Range.difference). -/
theorem differenceE_disjoint {r o : Range α} (h : r.is_disjoint o = true) :
    RangeSet.differenceE r o = .ok (some [r]) := by
  unfold RangeSet.differenceE
  rw [if_pos h]

/-- Computation rule for the effectful map when every element succeeds. -/
theorem mapME_map {A B E : Type} (f : A → Except E B) (g : A → B) :
    ∀ l : List A, (∀ a ∈ l, f a = .ok (g a)) → mapME f l = .ok (l.map g) := by
  intro l
  induction l with
  | nil => intro _; rfl
  | cons a l ih =>
    intro h
    have ha : f a = .ok (g a) := h a (List.mem_cons_self a l)
    have hl : mapME f l = .ok (l.map g) :=
      ih (fun x hx => h x (List.mem_cons_of_mem a hx))
    simp only [mapME, ha, hl, List.map_cons]

/-- Flattening a list of singleton parts recovers the original list. -/
theorem flatMap_getD_singleton {A : Type} :
    ∀ l : List A, (l.map (fun r => some [r])).flatMap
      (fun x : Option (List A) => x.getD []) = l := by
  intro l
  induction l with
  | nil => rfl
  | cons a l ih =>
    simp only [List.map_cons, List.flatMap_cons, Option.getD_some,
      List.singleton_append, ih]

namespace RangeSet

/-- When no adjacent pair merges, the condensing fold only reverses the
input onto the accumulator. -/
theorem fold_nomerge :
    ∀ (l acc : List (Range α)),
      (∀ prev, acc.head? = some prev → ∀ cur, l.head? = some cur →
        Range.union prev cur = none) →
      l.Chain' (fun a b => Range.union a b = none) →
      l.foldl condense_step acc = l.reverse ++ acc := by
  intro l
  induction l with
  | nil => intro acc _ _; simp
  | cons cur l2 ih =>
    intro acc hhead hchain
    rw [List.foldl_cons]
    have hstep : condense_step acc cur = cur :: acc := by
      cases acc with
      | nil => rfl
      | cons prev rest =>
        have hu : Range.union prev cur = none := hhead prev rfl cur rfl
        simp only [condense_step, hu]
    rw [hstep]
    have hh2 : ∀ prev, (cur :: acc).head? = some prev → ∀ cur2,
        l2.head? = some cur2 → Range.union prev cur2 = none := by
      intro prev hp cur2 hc2
      injection hp with hp
      subst hp
      exact (List.chain'_cons'.mp hchain).1 cur2 (Option.mem_def.mpr hc2)
    rw [ih (cur :: acc) hh2 ((List.chain'_cons'.mp hchain).2)]
    simp

/-- The condensing pass is the identity on a strictly sorted list whose
adjacent members have gaps: nothing is merged and the order is kept. -/
theorem condense_fixpoint (l : List (Range α))
    (h : l.Pairwise (fun a b => a.lt b = true ∧ gapTo a b)) :
    condense_range_list l = l := by
  have hsorted : List.Sorted sortRel l :=
    h.imp (fun hab => lt_asymm_ranges hab.1)
  unfold condense_range_list
  rw [List.Sorted.insertionSort_eq hsorted]
  have hchain : l.Chain' (fun a b => Range.union a b = none) :=
    (List.Pairwise.chain' h).imp
      (fun a b hab => union_none_of_lt_gap hab.1 hab.2)
  rw [fold_nomerge l [] (by intro prev hp; simp at hp) hchain]
  simp

/-- RangeSet.pop on a set satisfying the invariant returns the head of the
internal list and leaves exactly the tail: subtracting the head from itself
yields None, subtracting it from every other member is the identity, and the
final condensing pass does not disturb the remaining members. -/
theorem pop_result {elem : Range α} {rest : List (Range α)}
    (hinv : invariant (elem :: rest)) :
    popE (elem :: rest) = .ok (elem, rest) := by
  obtain ⟨hval, hpw⟩ := hinv
  have helemv : elem.valid = true := hval elem (List.mem_cons_self elem rest)
  have hrestv : ∀ x ∈ rest, x.valid = true :=
    fun x hx => hval x (List.mem_cons_of_mem elem hx)
  obtain ⟨hhead, hpwrest⟩ := List.pairwise_cons.mp hpw
  have hmap : mapME (fun r => differenceE r elem) (elem :: rest) =
      .ok (none :: rest.map (fun r => some [r])) := by
    have h1 : differenceE elem elem = .ok none := differenceE_self helemv
    have h2 : mapME (fun r => differenceE r elem) rest =
        .ok (rest.map (fun r => some [r])) := by
      refine mapME_map _ _ rest ?_
      intro a ha
      refine differenceE_disjoint ?_
      rw [is_disjoint_comm]
      exact (hhead a ha).2.1
    simp only [mapME, h1, h2]
  have hfix : condense_range_list rest = rest := by
    refine condense_fixpoint rest (hpwrest.imp_of_mem ?_)
    intro a b ha hb hab
    exact ⟨hab.1, gap_of_invariant_pair (hrestv a ha) (hrestv b hb)
      hab.1 hab.2.2.1⟩
  have hdisc : discardE (elem :: rest) elem = .ok rest := by
    unfold discardE
    rw [hmap]
    simp only [List.flatMap_cons, Option.getD_none, List.nil_append,
      flatMap_getD_singleton, hfix]
  simp only [popE, hdisc]

end RangeSet

/-!
The IntervalTree wrapper (src/xocto/intervaltree.py).
-/

/-- Modelled from the spec: the data carried per interval by the external
intervaltree package as wrapped by xocto.  xocto's Interval class defines
__eq__ as object identity so that equal-looking intervals can coexist in
one tree; identity is embedded as an ident tag. -/
structure Interval (β δ : Type) where
  ident : Nat
  start : β
  end_ : β
  data : δ
deriving DecidableEq

/-- The error the underlying tree removal raises when the interval is not
present (a ValueError). -/
inductive TreeError
  | valueError
deriving DecidableEq

/-- Modelled from the spec: intervaltree.IntervalTree.remove deletes the
given interval from the tree, raising ValueError when it is not present;
presence is decided by Interval equality, which xocto defines as object
identity. -/
def tree_removeE {β δ : Type} (t : List (Interval β δ)) (i : Interval β δ) :
    Except TreeError (List (Interval β δ)) :=
  if t.any (fun x => x.ident == i.ident) then
    .ok (t.filter (fun x => !(x.ident == i.ident)))
  else .error .valueError

/-- Transcription of IntervalTree.remove (intervaltree.py lines 89-94): the
underlying removal's ValueError is caught and the method returns, leaving
the tree unchanged. -/
def IntervalTree.remove {β δ : Type} (t : List (Interval β δ))
    (i : Interval β δ) : List (Interval β δ) :=
  match tree_removeE t i with
  | .ok t2 => t2
  | .error _ => t

/-- Removing an absent interval raises ValueError underneath, which the
wrapper swallows, leaving the tree contents unchanged. -/
theorem tree_remove_absent {β δ : Type} (t : List (Interval β δ))
    (i : Interval β δ) (h : ∀ x ∈ t, x.ident ≠ i.ident) :
    tree_removeE t i = .error .valueError ∧ IntervalTree.remove t i = t := by
  have hany : t.any (fun x => x.ident == i.ident) = false := by
    rw [List.any_eq_false]
    intro x hx
    simp only [beq_iff_eq]
    exact h x hx
  constructor
  · unfold tree_removeE
    rw [hany]
    rfl
  · unfold IntervalTree.remove tree_removeE
    rw [hany]
    rfl

/-- Removing the same interval twice is the same as removing it once: after
the first removal the interval is absent and the second call is a no-op. -/
theorem tree_remove_remove {β δ : Type} (t : List (Interval β δ))
    (i : Interval β δ) :
    IntervalTree.remove (IntervalTree.remove t i) i =
      IntervalTree.remove t i := by
  by_cases hmem : t.any (fun x => x.ident == i.ident) = true
  · have hres : IntervalTree.remove t i =
        t.filter (fun x => !(x.ident == i.ident)) := by
      unfold IntervalTree.remove tree_removeE
      rw [hmem]
      rfl
    rw [hres]
    refine (tree_remove_absent _ i ?_).2
    intro x hx
    have hpx := List.of_mem_filter hx
    simp only [Bool.not_eq_eq_eq_not, Bool.not_true, beq_eq_false_iff_ne,
      ne_eq] at hpx
    exact hpx
  · rw [Bool.not_eq_true, List.any_eq_false] at hmem
    have hres := (tree_remove_absent t i (by
      intro x hx
      have := hmem x hx
      simp only [beq_iff_eq] at this
      exact this)).2
    rw [hres]
    exact hres

/-!
The complement of a RangeSet: the generated gap list is valid, already in
condensed shape, and disjoint from every member of the original set.
-/

/-- The first clause of is_disjoint: the other range starts after this one
ends, or exactly where it ends with an exclusive side to the touch. -/
theorem disjoint_of_before {r o : Range α} {e s : α}
    (he : r.end_ = some e) (hs : o.start = some s)
    (h : e < s ∨ (e = s ∧ (r.is_right_exclusive = true ∨
      o.is_left_exclusive = true))) :
    r.is_disjoint o = true := by
  unfold Range.is_disjoint
  rw [he, hs]
  rw [Bool.or_eq_true]
  refine Or.inl ?_
  show (!(r.is_inside_right_bound s && o.is_inside_left_bound e)) = true
  rw [irb_some he s, ilb_some hs e]
  rcases h with h | ⟨heq, hex⟩
  · have h1 : (s < e) = False := eq_false (lt_asymm h)
    have h2 : (s ≤ e) = False := eq_false (not_le_of_gt h)
    simp [h1, h2]
  · subst heq
    rcases hex with hx | hx <;> simp [hx]

/-- The second clause of is_disjoint: the other range ends before this one
starts, or exactly where it starts with an exclusive side to the touch. -/
theorem disjoint_of_after {r o : Range α} {s e : α}
    (hs : r.start = some s) (he : o.end_ = some e)
    (h : e < s ∨ (e = s ∧ (r.is_left_exclusive = true ∨
      o.is_right_exclusive = true))) :
    r.is_disjoint o = true := by
  unfold Range.is_disjoint
  rw [hs, he]
  rw [Bool.or_eq_true]
  refine Or.inr ?_
  show (!(r.is_inside_left_bound e && o.is_inside_right_bound s)) = true
  rw [ilb_some hs e, irb_some he s]
  rcases h with h | ⟨heq, hex⟩
  · have h1 : (s < e) = False := eq_false (lt_asymm h)
    have h2 : (s ≤ e) = False := eq_false (not_le_of_gt h)
    simp [h1, h2]
  · subst heq
    rcases hex with hx | hx <;> simp [hx]

/-- A range with the strictly smaller finite start sorts first. -/
theorem lt_of_start_lt {r o : Range α} {sr so : α} (hr : r.start = some sr)
    (ho : o.start = some so) (h : sr < so) : r.lt o = true := by
  unfold Range.lt
  rw [hr, ho]
  rw [if_neg (fun hc => absurd (Option.some.inj hc) (ne_of_lt h))]
  exact decide_eq_true h

/-- A range unbounded on the left sorts before one with a finite start. -/
theorem lt_of_none_some {r o : Range α} {so : α} (hr : r.start = none)
    (ho : o.start = some so) : r.lt o = true := by
  unfold Range.lt
  rw [hr, ho]
  rw [if_neg (fun hc => Option.noConfusion hc)]

/-- A boolean flag and its negation cannot both be false. -/
theorem flag_or_neg (x y : Bool) (hy : y = !x) :
    x = true ∨ y = true := by
  cases x
  · right
    rw [hy]
    rfl
  · left
    rfl

/-- Transitivity of the strict order combined with the gap relation. -/
theorem ltGap_trans {a b c : Range α} (h1 : a.lt b = true ∧ gapTo a b)
    (h2 : b.lt c = true ∧ gapTo b c) : a.lt c = true ∧ gapTo a c :=
  ⟨lt_trans_ranges h1.1 h2.1,
    gap_trans h1.2 (le_of_lt ((lt_iff_key b c).mp h2.1))⟩

namespace RangeSet

/-- The leading element of the complement gap list: the range from the
unbounded left up to the first member, present when that member has a
finite start (ranges.py lines 724-734). -/
def pre_part (first : Range α) : List (Range α) :=
  match first.start with
  | some _ => [Range.mk none first.start
      (RangeBoundaries.from_bounds true (!first.is_left_exclusive))]
  | none => []

/-- The remainder of the complement gap list from a current member onwards:
one gap range per consecutive pair, and the final range up to the unbounded
right when the last member has a finite end (ranges.py lines 736-760). -/
def tail_part : Range α → List (Range α) → List (Range α)
  | p, [] =>
    match p.end_ with
    | some _ => [Range.mk p.end_ none
        (RangeBoundaries.from_bounds (!p.is_right_exclusive) true)]
    | none => []
  | p, c :: rest =>
    Range.mk p.end_ c.start
      (RangeBoundaries.from_bounds (!p.is_right_exclusive)
        (!c.is_left_exclusive)) :: tail_part c rest

/-- The zip-with-successor gap list followed by the trailing range equals
the recursive tail_part. -/
theorem gaps_post_eq :
    ∀ (rest : List (Range α)) (first : Range α),
      (((first :: rest).zip rest).map (fun p => Range.mk p.1.end_ p.2.start
        (RangeBoundaries.from_bounds (!p.1.is_right_exclusive)
          (!p.2.is_left_exclusive)))) ++
      (match ((first :: rest).getLast (List.cons_ne_nil first rest)).end_ with
       | some _ => [Range.mk
           ((first :: rest).getLast (List.cons_ne_nil first rest)).end_ none
           (RangeBoundaries.from_bounds
             (!((first :: rest).getLast
               (List.cons_ne_nil first rest)).is_right_exclusive) true)]
       | none => []) = tail_part first rest := by
  intro rest
  induction rest with
  | nil => intro first; rfl
  | cons c rest2 ih =>
    intro first
    rw [List.zip_cons_cons, List.map_cons, List.cons_append]
    rw [List.getLast_cons (List.cons_ne_nil c rest2)]
    rw [ih c]
    rfl

/-- The complement gap list decomposed into its leading range and the
recursive remainder. -/
theorem complement_list_eq (first : Range α) (rest : List (Range α)) :
    complement_list (first :: rest) = pre_part first ++ tail_part first rest := by
  rw [← gaps_post_eq rest first]
  simp only [complement_list, pre_part, List.append_assoc]

/-- Validity, chaining, and head description of the tail of the complement
list: under a chain of adjacent gaps the generated ranges are valid and are
themselves strictly sorted with gaps; the head starts at the end of the
current member with negated exclusivity. -/
theorem tail_part_props :
    ∀ (rest : List (Range α)) (p : Range α),
      p.valid = true → (∀ x ∈ rest, x.valid = true) →
      List.Chain gapTo p rest →
      (∀ x ∈ tail_part p rest, x.valid = true) ∧
      (tail_part p rest).Chain' (fun a b => a.lt b = true ∧ gapTo a b) ∧
      (∀ h, (tail_part p rest).head? = some h →
        ∃ ep, p.end_ = some ep ∧ h.start = some ep ∧
          h.is_left_exclusive = !p.is_right_exclusive) := by
  intro rest
  induction rest with
  | nil =>
    intro p hp _ _
    cases hpe : p.end_ with
    | none =>
      have ht : tail_part p [] = [] := by
        unfold tail_part
        rw [hpe]
      rw [ht]
      refine ⟨?_, List.chain'_nil, ?_⟩
      · intro x hx
        exact absurd hx (List.not_mem_nil x)
      · intro h hh
        cases hh
    | some ep =>
      have ht : tail_part p [] = [Range.mk (some ep) none
          (RangeBoundaries.from_bounds (!p.is_right_exclusive) true)] := by
        unfold tail_part
        rw [hpe]
      rw [ht]
      refine ⟨?_, List.chain'_singleton _, ?_⟩
      · intro x hx
        rw [List.mem_singleton] at hx
        rw [hx, valid_mk_iff]
        exact ⟨fun hc => Option.noConfusion hc, fun _ => rfl, fun sv ev _ hc => Option.noConfusion hc⟩
      · intro h hh
        injection hh with hh
        rw [← hh]
        exact ⟨ep, rfl, rfl, from_bounds_left _ _⟩
  | cons c rest2 ih =>
    intro p hp hv hch
    obtain ⟨hpc, hch2⟩ := List.chain_cons.mp hch
    obtain ⟨ep, sc, hpe, hcs, hcase⟩ := hpc
    have hcv : c.valid = true := hv c (List.mem_cons_self c rest2)
    have hv2 : ∀ x ∈ rest2, x.valid = true :=
      fun x hx => hv x (List.mem_cons_of_mem c hx)
    obtain ⟨ihv, ihch, ihhead⟩ := ih c hcv hv2 hch2
    have ht : tail_part p (c :: rest2) =
        Range.mk p.end_ c.start (RangeBoundaries.from_bounds
          (!p.is_right_exclusive) (!c.is_left_exclusive)) ::
        tail_part c rest2 := rfl
    rw [ht, hpe, hcs]
    have hgv : (Range.mk (some ep) (some sc) (RangeBoundaries.from_bounds
        (!p.is_right_exclusive) (!c.is_left_exclusive))).valid = true := by
      rw [valid_mk_iff]
      refine ⟨fun hc => Option.noConfusion hc, fun hc => Option.noConfusion hc, ?_⟩
      intro sv ev hsv hev
      injection hsv with hsv
      injection hev with hev
      subst hsv
      subst hev
      rcases hcase with h | ⟨h, hpr, hcl⟩
      · split_ifs with hb
        · exact le_of_lt h
        · exact h
      · rw [if_pos ⟨by rw [hpr]; rfl, by rw [hcl]; rfl⟩]
        exact le_of_eq h
    refine ⟨?_, ?_, ?_⟩
    · intro x hx
      rcases List.mem_cons.mp hx with hx | hx
      · rw [hx]
        exact hgv
      · exact ihv x hx
    · rw [List.chain'_cons']
      refine ⟨?_, ihch⟩
      intro h hh
      rw [Option.mem_def] at hh
      obtain ⟨ec, hce, hhs, hhl⟩ := ihhead h hh
      have hscec : sc ≤ ec := valid_le hcv hcs hce
      constructor
      · refine lt_of_start_lt rfl hhs ?_
        rcases hcase with h2 | ⟨h2, hpr, hcl⟩
        · exact lt_of_lt_of_le h2 hscec
        · rw [h2]
          exact valid_strict_of_left_excl hcv hcs hce hcl
      · refine ⟨sc, ec, rfl, hhs, ?_⟩
        rcases lt_or_eq_of_le hscec with h2 | h2
        · exact Or.inl h2
        · obtain ⟨hlf, hrf⟩ := valid_II_of_eq hcv hcs hce h2
          refine Or.inr ⟨h2, ?_, ?_⟩
          · show (RangeBoundaries.from_bounds (!p.is_right_exclusive)
              (!c.is_left_exclusive)).is_right_exclusive = true
            rw [from_bounds_right, hlf]
            rfl
          · rw [hhl, hrf]
            rfl
    · intro h hh
      injection hh with hh
      rw [← hh]
      exact ⟨ep, rfl, rfl, from_bounds_left _ _⟩

/-- Every member of the original list, and every valid range lying entirely
before its head, is disjoint from every range of the tail of the complement
list. -/
theorem tail_part_disjoint :
    ∀ (rest : List (Range α)) (p : Range α),
      p.valid = true → (∀ x ∈ rest, x.valid = true) →
      (p :: rest).Pairwise (fun a b => a.lt b = true ∧ gapTo a b) →
      ∀ b ∈ tail_part p rest,
        (∀ a ∈ p :: rest, a.is_disjoint b = true) ∧
        (∀ a, a.valid = true → gapTo a p → a.is_disjoint b = true) := by
  intro rest
  induction rest with
  | nil =>
    intro p hp _ _ b hb
    cases hpe : p.end_ with
    | none =>
      rw [show tail_part p [] = [] from by unfold tail_part; rw [hpe]] at hb
      exact absurd hb (List.not_mem_nil b)
    | some ep =>
      rw [show tail_part p [] = [Range.mk (some ep) none
          (RangeBoundaries.from_bounds (!p.is_right_exclusive) true)]
        from by unfold tail_part; rw [hpe]] at hb
      rw [List.mem_singleton] at hb
      subst hb
      constructor
      · intro a ha
        rcases List.mem_cons.mp ha with ha | ha
        · rw [ha]
          exact disjoint_of_before hpe rfl
            (Or.inr ⟨rfl, flag_or_neg _ _ (from_bounds_left _ _)⟩)
        · exact absurd ha (List.not_mem_nil a)
      · intro a hav hgap
        obtain ⟨ea, sp, hae, hps, hc3⟩ := hgap
        have hsple : sp ≤ ep := valid_le hp hps hpe
        refine disjoint_of_before hae rfl ?_
        rcases hc3 with h | ⟨h, harx, hplx⟩
        · exact Or.inl (lt_of_lt_of_le h hsple)
        · have hspep : sp < ep := valid_strict_of_left_excl hp hps hpe hplx
          exact Or.inl (by rw [h]; exact hspep)
  | cons c rest2 ih =>
    intro p hp hv hpw b hb
    have hcv : c.valid = true := hv c (List.mem_cons_self c rest2)
    have hv2 : ∀ x ∈ rest2, x.valid = true :=
      fun x hx => hv x (List.mem_cons_of_mem c hx)
    obtain ⟨hhd, hpw2⟩ := List.pairwise_cons.mp hpw
    have hpc : p.lt c = true ∧ gapTo p c := hhd c (List.mem_cons_self c rest2)
    obtain ⟨ep, sc, hpe, hcs, hcase⟩ := hpc.2
    rw [show tail_part p (c :: rest2) = Range.mk p.end_ c.start
        (RangeBoundaries.from_bounds (!p.is_right_exclusive)
          (!c.is_left_exclusive)) :: tail_part c rest2 from rfl,
      hpe, hcs] at hb
    rcases List.mem_cons.mp hb with hb | hb
    · subst hb
      constructor
      · intro a ha
        rcases List.mem_cons.mp ha with ha | ha
        · rw [ha]
          exact disjoint_of_before hpe rfl
            (Or.inr ⟨rfl, flag_or_neg _ _ (from_bounds_left _ _)⟩)
        rcases List.mem_cons.mp ha with ha | ha
        · rw [ha]
          exact disjoint_of_after hcs rfl
            (Or.inr ⟨rfl, flag_or_neg _ _ (from_bounds_right _ _)⟩)
        · have hca : c.lt a = true ∧ gapTo c a :=
            (List.pairwise_cons.mp hpw2).1 a ha
          obtain ⟨ec, sa, hce, has, hcase2⟩ := hca.2
          have hscec : sc ≤ ec := valid_le hcv hcs hce
          refine disjoint_of_after has rfl ?_
          rcases hcase2 with h | ⟨h, hcrx, halx⟩
          · exact Or.inl (lt_of_le_of_lt hscec h)
          · have hsltec : sc < ec := valid_strict_of_right_excl hcv hcs hce hcrx
            exact Or.inl (by rw [← h]; exact hsltec)
      · intro a hav hgap
        obtain ⟨ea, sp, hae, hps, hc3⟩ := hgap
        have hsple : sp ≤ ep := valid_le hp hps hpe
        refine disjoint_of_before hae rfl ?_
        rcases hc3 with h | ⟨h, harx, hplx⟩
        · exact Or.inl (lt_of_lt_of_le h hsple)
        · have hspep : sp < ep := valid_strict_of_left_excl hp hps hpe hplx
          exact Or.inl (by rw [h]; exact hspep)
    · have hres := ih c hcv hv2 hpw2 b hb
      constructor
      · intro a ha
        rcases List.mem_cons.mp ha with ha | ha
        · rw [ha]
          exact hres.2 p hp hpc.2
        · exact hres.1 a ha
      · intro a hav hgap
        refine hres.2 a hav (gap_trans hgap ?_)
        exact le_of_lt ((lt_iff_key p c).mp hpc.1)

/-- Everything the complement claim needs about the gap list of an
invariant RangeSet: its members are valid, it is itself strictly sorted
with gaps (hence fixed by the condensing pass), and every original member
is disjoint from every one of its members. -/
theorem complement_list_props (ranges : List (Range α))
    (hinv : invariant ranges) :
    (∀ x ∈ complement_list ranges, x.valid = true) ∧
    (complement_list ranges).Pairwise (fun a b => a.lt b = true ∧ gapTo a b) ∧
    (∀ a ∈ ranges, ∀ b ∈ complement_list ranges, a.is_disjoint b = true) := by
  obtain ⟨hval, hpw⟩ := hinv
  cases ranges with
  | nil =>
    refine ⟨?_, ?_, ?_⟩
    · intro x hx
      rw [show complement_list ([] : List (Range α)) = [Range.continuum α]
        from rfl, List.mem_singleton] at hx
      rw [hx]
      rfl
    · exact List.Pairwise.cons (fun y hy => absurd hy (List.not_mem_nil y))
        List.Pairwise.nil
    · intro a ha
      exact absurd ha (List.not_mem_nil a)
  | cons first rest =>
    have hfv : first.valid = true := hval first (List.mem_cons_self first rest)
    have hrv : ∀ x ∈ rest, x.valid = true :=
      fun x hx => hval x (List.mem_cons_of_mem first hx)
    have hR : (first :: rest).Pairwise
        (fun a b => a.lt b = true ∧ gapTo a b) := by
      refine hpw.imp_of_mem ?_
      intro a b ha hb hab
      exact ⟨hab.1, gap_of_invariant_pair (hval a ha) (hval b hb)
        hab.1 hab.2.2.1⟩
    have hchain : List.Chain gapTo first rest := by
      have h1 : List.Chain' (fun a b => a.lt b = true ∧ gapTo a b)
          (first :: rest) := hR.chain'
      exact List.Chain.imp (fun a b hab => hab.2) h1
    obtain ⟨htv, htch, hthead⟩ := tail_part_props rest first hfv hrv hchain
    have htd := tail_part_disjoint rest first hfv hrv hR
    rw [complement_list_eq]
    cases hfs : first.start with
    | none =>
      have hpre : pre_part first = [] := by
        unfold pre_part
        rw [hfs]
      rw [hpre, List.nil_append]
      refine ⟨htv, ?_, ?_⟩
      · haveI : IsTrans (Range α) (fun a b => a.lt b = true ∧ gapTo a b) :=
          ⟨fun a b c h1 h2 => ltGap_trans h1 h2⟩
        exact List.chain'_iff_pairwise.mp htch
      · intro a ha b hb
        exact (htd b hb).1 a ha
    | some sf =>
      have hpre : pre_part first = [Range.mk none (some sf)
          (RangeBoundaries.from_bounds true (!first.is_left_exclusive))] := by
        unfold pre_part
        rw [hfs]
      rw [hpre, List.singleton_append]
      have hprv : (Range.mk none (some sf) (RangeBoundaries.from_bounds true
          (!first.is_left_exclusive))).valid = true := by
        rw [valid_mk_iff]
        exact ⟨fun _ => rfl, fun hc => Option.noConfusion hc, fun sv ev hc _ => Option.noConfusion hc⟩
      refine ⟨?_, ?_, ?_⟩
      · intro x hx
        rcases List.mem_cons.mp hx with hx | hx
        · rw [hx]
          exact hprv
        · exact htv x hx
      · haveI : IsTrans (Range α) (fun a b => a.lt b = true ∧ gapTo a b) :=
          ⟨fun a b c h1 h2 => ltGap_trans h1 h2⟩
        refine List.chain'_iff_pairwise.mp ?_
        rw [List.chain'_cons']
        refine ⟨?_, htch⟩
        intro h hh
        rw [Option.mem_def] at hh
        obtain ⟨ef, hfe, hhs, hhl⟩ := hthead h hh
        have hsfef : sf ≤ ef := valid_le hfv hfs hfe
        constructor
        · exact lt_of_none_some rfl hhs
        · refine ⟨sf, ef, rfl, hhs, ?_⟩
          rcases lt_or_eq_of_le hsfef with h2 | h2
          · exact Or.inl h2
          · obtain ⟨hlf, hrf⟩ := valid_II_of_eq hfv hfs hfe h2
            refine Or.inr ⟨h2, ?_, ?_⟩
            · show (RangeBoundaries.from_bounds true
                (!first.is_left_exclusive)).is_right_exclusive = true
              rw [from_bounds_right, hlf]
              rfl
            · rw [hhl, hrf]
              rfl
      · intro a ha b hb
        rcases List.mem_cons.mp hb with hb | hb
        · subst hb
          rcases List.mem_cons.mp ha with ha | ha
          · rw [ha]
            exact disjoint_of_after hfs rfl
              (Or.inr ⟨rfl, flag_or_neg _ _ (from_bounds_right _ _)⟩)
          · have hfa : first.lt a = true ∧ gapTo first a :=
              (List.pairwise_cons.mp hR).1 a ha
            obtain ⟨ef, sa, hfe, has, hcase⟩ := hfa.2
            have hsfef : sf ≤ ef := valid_le hfv hfs hfe
            refine disjoint_of_after has rfl ?_
            rcases hcase with h | ⟨h, hfrx, halx⟩
            · exact Or.inl (lt_of_le_of_lt hsfef h)
            · have hsltef : sf < ef := valid_strict_of_right_excl hfv hfs hfe hfrx
              exact Or.inl (by rw [← h]; exact hsltef)
        · exact (htd b hb).1 a ha

end RangeSet

/-!
Claim theorems.
-/

/-- C3: with calendar-day semantics, FiniteDateRange(Jan 1, Jan 2) and
FiniteDateRange(Jan 3, Jan 4) (one day apart, both ends inclusive) union to
FiniteDateRange(Jan 1, Jan 4) and are not disjoint, while
FiniteDateRange(Jan 1, Jan 2) and FiniteDateRange(Jan 4, Jan 5) (a full day
gap) have union None and are disjoint. -/
theorem C3_finite_date_range_adjacency :
    FiniteDateRange.union (FiniteDateRange.fdr (jan 1) (jan 2))
        (FiniteDateRange.fdr (jan 3) (jan 4)) =
      some (FiniteDateRange.fdr (jan 1) (jan 4)) ∧
    FiniteDateRange.union (FiniteDateRange.fdr (jan 1) (jan 2))
        (FiniteDateRange.fdr (jan 4) (jan 5)) = none ∧
    FiniteDateRange.is_disjoint (FiniteDateRange.fdr (jan 1) (jan 2))
        (FiniteDateRange.fdr (jan 3) (jan 4)) = false ∧
    FiniteDateRange.is_disjoint (FiniteDateRange.fdr (jan 1) (jan 2))
        (FiniteDateRange.fdr (jan 4) (jan 5)) = true := by
  decide

/-- C4: the claim says every Range value, including subclass instances, is
immutable so that any assignment to start, end or boundaries fails.  On the
base class the guard in Range.__setattr__ indeed raises, but the guard
consults type(self).__slots__, and every subclass defines an empty
__slots__ tuple, so on a FiniteRange (or FiniteDateRange, etc.) instance
the guard falls through to object.__setattr__, which finds the slot
descriptor inherited from Range and mutates the field.  This contradicts
the immutability the class documents (its __copy__ and __deepcopy__ return
self, relying on it), so the code, not the claim, is wrong. -/
theorem C4_subclass_setattr_mutates :
    setattr_outcome RangeClass.FiniteRange "start" = SetattrOutcome.mutated ∧
    setattr_outcome RangeClass.FiniteDateRange "start" = SetattrOutcome.mutated ∧
    setattr_outcome RangeClass.FiniteDatetimeRange "end" = SetattrOutcome.mutated ∧
    setattr_outcome RangeClass.HalfFiniteRange "boundaries" = SetattrOutcome.mutated ∧
    setattr_outcome RangeClass.Range "start" = SetattrOutcome.attributeError ∧
    setattr_outcome RangeClass.Range "something_else" = SetattrOutcome.attributeError := by
  decide

/-- C10 counterexample: the claim explains the comparison as treating an
absent other start as greater, which would make a FiniteDatetimeRange
compare less-than a range with an absent start; the code returns False in
that case (an absent start sorts as in the base ordering, namely lowest). -/
theorem C10_counterexample :
    FiniteDatetimeRange.lt 0 (Range.continuum Int) = false := by
  decide

/-- C10 amended: for FiniteDatetimeRange values with equal starts, both
comparisons are false regardless of the ends, because the comparison
considers only the start endpoints and returns false whenever the other
start is absent (treating it as lesser, as the base ordering does); the
base Range ordering, in contrast, breaks equal-start ties by the ends. -/
theorem C10_equal_start_unordered :
    (∀ s e1 e2 : Int,
      FiniteDatetimeRange.lt s
        (Range.mk (some s) (some e2) RangeBoundaries.INCLUSIVE_EXCLUSIVE) = false ∧
      FiniteDatetimeRange.lt s
        (Range.mk (some s) (some e1) RangeBoundaries.INCLUSIVE_EXCLUSIVE) = false) ∧
    (∀ (s : Int) (o : Range Int), o.start = none →
      FiniteDatetimeRange.lt s o = false) ∧
    (∀ s e1 e2 : Int, s < e1 → s < e2 → e1 < e2 →
      Range.lt (Range.mk (some s) (some e1) RangeBoundaries.INCLUSIVE_EXCLUSIVE)
        (Range.mk (some s) (some e2) RangeBoundaries.INCLUSIVE_EXCLUSIVE) = true) := by
  refine ⟨?_, ?_, ?_⟩
  · intro s e1 e2
    constructor <;> simp [FiniteDatetimeRange.lt]
  · intro s o ho
    unfold FiniteDatetimeRange.lt
    rw [ho]
  · intro s e1 e2 h1 h2 h3
    simp [Range.lt, Range.is_left_exclusive, Range.is_right_exclusive,
      RangeBoundaries.is_left_exclusive, RangeBoundaries.is_right_exclusive,
      ne_of_lt h3, h3]

/-- C10 witness for the amended claim: concrete equal-start
FiniteDatetimeRanges are mutually unordered while the base ordering orders
them by end. -/
theorem C10_witness :
    (FiniteDatetimeRange.lt 0
        (Range.mk (some 0) (some 5) RangeBoundaries.INCLUSIVE_EXCLUSIVE) = false ∧
      FiniteDatetimeRange.lt 0
        (Range.mk (some 0) (some 3) RangeBoundaries.INCLUSIVE_EXCLUSIVE) = false) ∧
    Range.lt (Range.mk (some (0 : Int)) (some 3) RangeBoundaries.INCLUSIVE_EXCLUSIVE)
      (Range.mk (some 0) (some 5) RangeBoundaries.INCLUSIVE_EXCLUSIVE) = true :=
  ⟨C10_equal_start_unordered.1 0 3 5,
    C10_equal_start_unordered.2.2 0 3 5 (by decide) (by decide) (by decide)⟩

/-- C7: Range.__lt__ is a strict total order (transitive, asymmetric,
trichotomous) whose behaviour is: a range sorts first by start with an
absent start lowest; for equal starts an inclusive left bound sorts before
an exclusive one; for equal starts and left bounds the comparison falls to
the end with an absent end highest; and for equal ends the exclusive-right
range sorts before the inclusive-right one. -/
theorem C7_lt_strict_total_order :
    (∀ (α : Type) [inst : LinearOrder α] (a b c : Range α),
      a.lt b = true → b.lt c = true → a.lt c = true) ∧
    (∀ (α : Type) [inst : LinearOrder α] (a b : Range α),
      a.lt b = true → b.lt a = false) ∧
    (∀ (α : Type) [inst : LinearOrder α] (a b : Range α),
      a.lt b = true ∨ a = b ∨ b.lt a = true) ∧
    (∀ (α : Type) [inst : LinearOrder α] (a b : Range α) (sb : α),
      a.start = none → b.start = some sb → a.lt b = true) ∧
    (∀ (α : Type) [inst : LinearOrder α] (a b : Range α) (sa sb : α),
      a.start = some sa → b.start = some sb → sa < sb → a.lt b = true) ∧
    (∀ (α : Type) [inst : LinearOrder α] (a b : Range α),
      a.start = b.start → a.is_left_exclusive = false → b.is_left_exclusive = true →
      a.lt b = true) ∧
    (∀ (α : Type) [inst : LinearOrder α] (a b : Range α) (ea : α),
      a.start = b.start → a.is_left_exclusive = b.is_left_exclusive →
      a.end_ = some ea → b.end_ = none → a.lt b = true) ∧
    (∀ (α : Type) [inst : LinearOrder α] (a b : Range α) (ea eb : α),
      a.start = b.start → a.is_left_exclusive = b.is_left_exclusive →
      a.end_ = some ea → b.end_ = some eb → ea < eb → a.lt b = true) ∧
    (∀ (α : Type) [inst : LinearOrder α] (a b : Range α),
      a.start = b.start → a.is_left_exclusive = b.is_left_exclusive →
      a.end_ = b.end_ → a.is_right_exclusive = true → b.is_right_exclusive = false →
      a.lt b = true) := by
  refine ⟨?_, ?_, ?_, ?_, ?_, ?_, ?_, ?_, ?_⟩
  · intro α inst a b c h1 h2
    exact lt_trans_ranges h1 h2
  · intro α inst a b h
    exact lt_asymm_ranges h
  · intro α inst a b
    exact lt_trichotomy_ranges a b
  · intro α inst a b sb ha hb
    unfold Range.lt
    rw [if_neg (by rw [ha, hb]; simp)]
    rw [ha, hb]
  · intro α inst a b sa sb ha hb hlt
    unfold Range.lt
    rw [if_neg (by
      rw [ha, hb]
      intro hc
      injection hc with hc2
      exact absurd hc2 (ne_of_lt hlt))]
    rw [ha, hb]
    simpa using hlt
  · intro α inst a b hs h1 h2
    unfold Range.lt
    rw [if_pos hs]
    simp [h1, h2]
  · intro α inst a b ea hs hfl he1 he2
    unfold Range.lt
    rw [if_pos hs]
    rw [hfl]
    simp only [Bool.and_not_self, Bool.not_and_self, Bool.false_eq_true, if_false]
    rw [if_neg (by rw [he1, he2]; simp)]
    rw [he1, he2]
  · intro α inst a b ea eb hs hfl he1 he2 hlt
    unfold Range.lt
    rw [if_pos hs]
    rw [hfl]
    simp only [Bool.and_not_self, Bool.not_and_self, Bool.false_eq_true, if_false]
    rw [if_neg (by
      rw [he1, he2]
      intro hc
      injection hc with hc2
      exact absurd hc2 (ne_of_lt hlt))]
    rw [he1, he2]
    simpa using hlt
  · intro α inst a b hs hfl he h1 h2
    unfold Range.lt
    rw [if_pos hs]
    rw [hfl]
    simp only [Bool.and_not_self, Bool.not_and_self, Bool.false_eq_true, if_false]
    rw [if_pos he]
    rw [h1, h2]
    rfl

/-- C7 witness: the tie-break clauses applied to concrete integer ranges. -/
theorem C7_witness :
    Range.lt (Range.mk none (some (2 : Int)) RangeBoundaries.EXCLUSIVE_EXCLUSIVE)
      (Range.mk (some 1) (some 2) RangeBoundaries.INCLUSIVE_EXCLUSIVE) = true ∧
    Range.lt (Range.mk (some (0 : Int)) (some 2) RangeBoundaries.INCLUSIVE_EXCLUSIVE)
      (Range.mk (some 0) (some 2) RangeBoundaries.INCLUSIVE_INCLUSIVE) = true :=
  ⟨C7_lt_strict_total_order.2.2.2.1 Int _ _ 1 rfl rfl,
    C7_lt_strict_total_order.2.2.2.2.2.2.2.2 Int _ _ rfl rfl rfl (by decide) (by decide)⟩

/-- Helper for C5: the Bool guard of the union None branch, as a
proposition. -/
theorem union_guard_iff (l rr : Range α) :
    (l.is_disjoint rr &&
      !(decide (l.end_ = rr.start) &&
        (l.is_right_inclusive || rr.is_left_inclusive))) = true ↔
      (l.is_disjoint rr = true ∧
        ¬(l.end_ = rr.start ∧
          (l.is_right_inclusive = true ∨ rr.is_left_inclusive = true))) := by
  rw [Bool.and_eq_true, Bool.not_eq_true', Bool.and_eq_false_iff]
  constructor
  · rintro ⟨h1, h2⟩
    refine ⟨h1, ?_⟩
    rintro ⟨he, hfl⟩
    rcases h2 with h2 | h2
    · rw [decide_eq_false_iff_not] at h2
      exact h2 he
    · rw [Bool.or_eq_false_iff] at h2
      rcases hfl with hfl | hfl
      · rw [h2.1] at hfl; cases hfl
      · rw [h2.2] at hfl; cases hfl
  · rintro ⟨h1, h2⟩
    refine ⟨h1, ?_⟩
    by_cases he : l.end_ = rr.start
    · right
      rw [Bool.or_eq_false_iff]
      constructor
      · cases hx : l.is_right_inclusive
        · rfl
        · exact absurd ⟨he, Or.inl hx⟩ h2
      · cases hx : rr.is_left_inclusive
        · rfl
        · exact absurd ⟨he, Or.inr hx⟩ h2
    · left
      rw [decide_eq_false_iff_not]
      exact he

/-- C5: union returns None exactly when the two ranges are disjoint and not
touching, where touching means that the sort-wise left range's end equals
the right range's start and at least one of the two adjoining boundaries is
inclusive; moreover the result is always a range (never an error) when the
guard fails, and the concrete example [0,2] union [2,4) is exactly
[0,4). -/
theorem C5_union_none_iff :
    (∀ (α : Type) [inst : LinearOrder α] (a b : Range α),
      a.unionE b = .ok none ↔
        ((if a.lt b then a else b).is_disjoint (if a.lt b then b else a) = true ∧
          ¬((if a.lt b then a else b).end_ = (if a.lt b then b else a).start ∧
            ((if a.lt b then a else b).is_right_inclusive = true ∨
              (if a.lt b then b else a).is_left_inclusive = true)))) ∧
    (∀ (α : Type) [inst : LinearOrder α] (a b : Range α),
      a.valid = true → b.valid = true →
      ¬((if a.lt b then a else b).is_disjoint (if a.lt b then b else a) = true ∧
          ¬((if a.lt b then a else b).end_ = (if a.lt b then b else a).start ∧
            ((if a.lt b then a else b).is_right_inclusive = true ∨
              (if a.lt b then b else a).is_left_inclusive = true))) →
      ∃ u, a.unionE b = .ok (some u)) ∧
    Range.union (Range.mk (some (0 : Int)) (some 2) RangeBoundaries.INCLUSIVE_INCLUSIVE)
      (Range.mk (some 2) (some 4) RangeBoundaries.INCLUSIVE_EXCLUSIVE) =
      some (Range.mk (some 0) (some 4) RangeBoundaries.INCLUSIVE_EXCLUSIVE) := by
  refine ⟨?_, ?_, by decide⟩
  · intro α inst a b
    unfold Range.unionE
    by_cases hlt : a.lt b = true
    · simp only [hlt, if_true]
      unfold Range.union_core
      by_cases hg : (a.is_disjoint b &&
          !(decide (a.end_ = b.start) &&
            (a.is_right_inclusive || b.is_left_inclusive))) = true
      · rw [if_pos hg]
        simp only [true_iff]
        exact (union_guard_iff a b).mp hg
      · rw [if_neg hg]
        constructor
        · intro hc
          exact absurd hc (map_some_ne_ok_none _)
        · intro hc
          exact absurd ((union_guard_iff a b).mpr hc) hg
    · rw [Bool.not_eq_true] at hlt
      simp only [hlt, Bool.false_eq_true, if_false]
      unfold Range.union_core
      by_cases hg : (b.is_disjoint a &&
          !(decide (b.end_ = a.start) &&
            (b.is_right_inclusive || a.is_left_inclusive))) = true
      · rw [if_pos hg]
        simp only [true_iff]
        exact (union_guard_iff b a).mp hg
      · rw [if_neg hg]
        constructor
        · intro hc
          exact absurd hc (map_some_ne_ok_none _)
        · intro hc
          exact absurd ((union_guard_iff b a).mpr hc) hg
  · intro α inst a b ha hb hguard
    obtain ⟨x, hx, hxv⟩ := unionE_ok ha hb
    cases x with
    | some u => exact ⟨u, hx⟩
    | none =>
      exfalso
      unfold Range.unionE at hx
      by_cases hlt : a.lt b = true
      · rw [if_pos hlt] at hx
        unfold Range.union_core at hx
        by_cases hg : (a.is_disjoint b &&
            !(decide (a.end_ = b.start) &&
              (a.is_right_inclusive || b.is_left_inclusive))) = true
        · simp only [hlt, if_true] at hguard
          exact hguard ((union_guard_iff a b).mp hg)
        · rw [if_neg hg] at hx
          exact map_some_ne_ok_none _ hx
      · rw [if_neg hlt] at hx
        unfold Range.union_core at hx
        by_cases hg : (b.is_disjoint a &&
            !(decide (b.end_ = a.start) &&
              (b.is_right_inclusive || a.is_left_inclusive))) = true
        · rw [Bool.not_eq_true] at hlt
          simp only [hlt, Bool.false_eq_true, if_false] at hguard
          exact hguard ((union_guard_iff b a).mp hg)
        · rw [if_neg hg] at hx
          exact map_some_ne_ok_none _ hx

/-- C5 witness: the None case of the iff at a concrete disjoint
non-touching pair, and the some case for a touching pair. -/
theorem C5_witness :
    Range.unionE (Range.mk (some (0 : Int)) (some 2) RangeBoundaries.INCLUSIVE_EXCLUSIVE)
      (Range.mk (some 3) (some 4) RangeBoundaries.INCLUSIVE_EXCLUSIVE) = .ok none ∧
    ∃ u, Range.unionE
      (Range.mk (some (0 : Int)) (some 2) RangeBoundaries.INCLUSIVE_INCLUSIVE)
      (Range.mk (some 2) (some 4) RangeBoundaries.INCLUSIVE_EXCLUSIVE) = .ok (some u) :=
  ⟨(C5_union_none_iff.1 Int _ _).mpr (by decide),
    C5_union_none_iff.2.1 Int _ _ (by decide) (by decide) (by decide)⟩

/-- C6: union and intersection are commutative, both for general ranges
(including the error behaviour, so also for the Option-valued results) and
for the FiniteDatetimeRange fast paths on valid operands. -/
theorem C6_commutativity :
    (∀ (α : Type) [inst : LinearOrder α] (a b : Range α), a.unionE b = b.unionE a) ∧
    (∀ (α : Type) [inst : LinearOrder α] (a b : Range α),
      a.intersectionE b = b.intersectionE a) ∧
    (∀ (α : Type) [inst : LinearOrder α] (a b : Range α), a.union b = b.union a) ∧
    (∀ (α : Type) [inst : LinearOrder α] (a b : Range α),
      a.intersection b = b.intersection a) ∧
    (∀ s1 e1 s2 e2 : Int, s1 < e1 → s2 < e2 →
      FiniteDatetimeRange.union s1 e1 s2 e2 = FiniteDatetimeRange.union s2 e2 s1 e1) ∧
    (∀ s1 e1 s2 e2 : Int, s1 < e1 → s2 < e2 →
      FiniteDatetimeRange.intersection s1 e1 s2 e2 =
        FiniteDatetimeRange.intersection s2 e2 s1 e1) := by
  refine ⟨?_, ?_, ?_, ?_, ?_, ?_⟩
  · intro α inst a b
    exact unionE_comm a b
  · intro α inst a b
    exact intersectionE_comm a b
  · intro α inst a b
    exact union_comm_ranges a b
  · intro α inst a b
    exact intersection_comm_ranges a b
  · intro s1 e1 s2 e2 h1 h2
    unfold FiniteDatetimeRange.union
    rcases lt_trichotomy s1 s2 with h | h | h
    · rw [if_pos h, if_neg (show ¬s2 < s1 by omega)]
    · subst h
      rw [if_neg (show ¬s1 < s1 by omega)]
      rw [if_neg (show ¬e2 < s1 by omega), if_neg (show ¬e1 < s1 by omega)]
      rw [max_comm]
      rw [if_neg (show ¬s1 < s1 by omega)]
    · rw [if_neg (show ¬s1 < s2 by omega), if_pos h]
  · intro s1 e1 s2 e2 h1 h2
    unfold FiniteDatetimeRange.intersection
    rcases lt_trichotomy s1 s2 with h | h | h
    · rw [if_pos h, if_neg (show ¬s2 < s1 by omega)]
    · subst h
      rw [if_neg (show ¬s1 < s1 by omega)]
      rw [if_neg (show ¬e2 ≤ s1 by omega), if_neg (show ¬e1 ≤ s1 by omega)]
      rw [min_comm]
      rw [if_neg (show ¬s1 < s1 by omega)]
    · rw [if_neg (show ¬s1 < s2 by omega), if_pos h]

/-- C6 witness: commutativity of the FiniteDatetimeRange fast paths on
concrete valid operands. -/
theorem C6_witness :
    FiniteDatetimeRange.union 0 3 1 5 = FiniteDatetimeRange.union 1 5 0 3 ∧
    FiniteDatetimeRange.intersection 0 3 1 5 = FiniteDatetimeRange.intersection 1 5 0 3 :=
  ⟨C6_commutativity.2.2.2.2.1 0 3 1 5 (by decide) (by decide),
    C6_commutativity.2.2.2.2.2 0 3 1 5 (by decide) (by decide)⟩

/-- C1 counterexample: for the adjacent date ranges [Jan 1, Jan 2] and
[Jan 3, Jan 4], FiniteDateRange.intersection returns None while
FiniteDateRange.is_disjoint returns False, so neither of the claim's two
alternatives holds and the claimed exactly-one (and the if-and-only-if)
fails for the FiniteDateRange variant. -/
theorem C1_counterexample :
    FiniteDateRange.intersection (FiniteDateRange.fdr (jan 1) (jan 2))
      (FiniteDateRange.fdr (jan 3) (jan 4)) = none ∧
    FiniteDateRange.is_disjoint (FiniteDateRange.fdr (jan 1) (jan 2))
      (FiniteDateRange.fdr (jan 3) (jan 4)) = false := by
  decide

/-- C1 amended: for base ranges over any comparable type, intersection
returns None exactly when the ranges are disjoint (and a non-None range,
never an error, otherwise); for FiniteDateRange only one direction
survives: disjoint ranges have intersection None and a non-None
intersection implies not disjoint, but adjacent date ranges (one day apart)
have intersection None even though is_disjoint is False. -/
theorem C1_intersection_none_iff_disjoint :
    (∀ (α : Type) [inst : LinearOrder α] (a b : Range α),
      a.valid = true → b.valid = true →
      (a.is_disjoint b = true → a.intersectionE b = .ok none) ∧
      (a.is_disjoint b = false → ∃ u, a.intersectionE b = .ok (some u))) ∧
    (∀ s1 e1 s2 e2 : Int,
      (FiniteDateRange.is_disjoint (FiniteDateRange.fdr s1 e1)
          (FiniteDateRange.fdr s2 e2) = true →
        FiniteDateRange.intersection (FiniteDateRange.fdr s1 e1)
          (FiniteDateRange.fdr s2 e2) = none) ∧
      (∀ u, FiniteDateRange.intersection (FiniteDateRange.fdr s1 e1)
          (FiniteDateRange.fdr s2 e2) = some u →
        FiniteDateRange.is_disjoint (FiniteDateRange.fdr s1 e1)
          (FiniteDateRange.fdr s2 e2) = false)) := by
  constructor
  · intro α inst a b ha hb
    constructor
    · intro hd
      unfold Range.intersectionE
      rw [if_pos hd]
    · intro hd
      unfold Range.intersectionE
      rw [if_neg (by simp [hd])]
      by_cases hlt : a.lt b = true
      · rw [if_pos hlt]
        obtain ⟨u, hu, -⟩ := intersection_core_ok ha hb hd
        exact ⟨u, hu⟩
      · rw [if_neg hlt]
        obtain ⟨u, hu, -⟩ := intersection_core_ok hb ha
          (by rw [is_disjoint_comm]; exact hd)
        exact ⟨u, hu⟩
  · intro s1 e1 s2 e2
    constructor
    · intro hd
      unfold FiniteDateRange.intersection
      rw [if_pos hd]
    · intro u hu
      by_cases hd : FiniteDateRange.is_disjoint (FiniteDateRange.fdr s1 e1)
          (FiniteDateRange.fdr s2 e2) = true
      · unfold FiniteDateRange.intersection at hu
        rw [if_pos hd] at hu
        cases hu
      · rw [Bool.not_eq_true] at hd
        exact hd

/-- C1 witness for the amended claim: the base-range equivalence at
concrete overlapping and disjoint pairs. -/
theorem C1_witness :
    (∃ u, Range.intersectionE
      (Range.mk (some (0 : Int)) (some 2) RangeBoundaries.INCLUSIVE_EXCLUSIVE)
      (Range.mk (some 1) (some 4) RangeBoundaries.INCLUSIVE_EXCLUSIVE) = .ok (some u)) ∧
    Range.intersectionE
      (Range.mk (some (0 : Int)) (some 2) RangeBoundaries.INCLUSIVE_EXCLUSIVE)
      (Range.mk (some 3) (some 4) RangeBoundaries.INCLUSIVE_EXCLUSIVE) = .ok none :=
  ⟨(C1_intersection_none_iff_disjoint.1 Int _ _ (by decide) (by decide)).2 (by decide),
    (C1_intersection_none_iff_disjoint.1 Int _ _ (by decide) (by decide)).1 (by decide)⟩

/-- C2: the RangeSet internal list, after construction from any list of
valid ranges and after every add, discard, union, and intersection, is
strictly sorted with members pairwise disjoint and non-mergeable (the union
of any two distinct members is None in either order). -/
theorem C2_rangeset_invariant :
    (∀ (α : Type) [inst : LinearOrder α] (source : List (Range α)),
      (∀ x ∈ source, x.valid = true) →
      RangeSet.invariant (RangeSet.ofList source)) ∧
    (∀ (α : Type) [inst : LinearOrder α] (ranges : List (Range α)) (item : Range α),
      (∀ x ∈ ranges, x.valid = true) → item.valid = true →
      RangeSet.invariant (RangeSet.add ranges item)) ∧
    (∀ (α : Type) [inst : LinearOrder α] (r1 r2 : List (Range α)),
      (∀ x ∈ r1, x.valid = true) → (∀ x ∈ r2, x.valid = true) →
      RangeSet.invariant (RangeSet.union r1 r2)) ∧
    (∀ (α : Type) [inst : LinearOrder α] (ranges : List (Range α)) (item : Range α),
      (∀ x ∈ ranges, x.valid = true) → item.valid = true →
      ∃ res, RangeSet.discardE ranges item = .ok res ∧ RangeSet.invariant res) ∧
    (∀ (α : Type) [inst : LinearOrder α] (r1 r2 : List (Range α)),
      (∀ x ∈ r1, x.valid = true) → (∀ x ∈ r2, x.valid = true) →
      ∃ res, RangeSet.intersectionE r1 r2 = .ok res ∧ RangeSet.invariant res) := by
  refine ⟨?_, ?_, ?_, ?_, ?_⟩
  · intro α inst source hv
    exact RangeSet.ofList_invariant source hv
  · intro α inst ranges item hv hi
    exact RangeSet.add_invariant ranges item hv hi
  · intro α inst r1 r2 h1 h2
    exact RangeSet.union_invariant r1 r2 h1 h2
  · intro α inst ranges item hv hi
    exact RangeSet.discardE_invariant ranges item hv hi
  · intro α inst r1 r2 h1 h2
    exact RangeSet.intersectionE_invariant r1 r2 h1 h2

/-- C2 witness: the constructor invariant on a concrete list with
overlapping, touching, and separated members. -/
theorem C2_witness :
    RangeSet.invariant (RangeSet.ofList
      [Range.mk (some (0 : Int)) (some 3) RangeBoundaries.INCLUSIVE_EXCLUSIVE,
       Range.mk (some 2) (some 4) RangeBoundaries.INCLUSIVE_EXCLUSIVE,
       Range.mk (some 7) (some 9) RangeBoundaries.INCLUSIVE_EXCLUSIVE]) :=
  C2_rangeset_invariant.1 Int
    [Range.mk (some 0) (some 3) RangeBoundaries.INCLUSIVE_EXCLUSIVE,
     Range.mk (some 2) (some 4) RangeBoundaries.INCLUSIVE_EXCLUSIVE,
     Range.mk (some 7) (some 9) RangeBoundaries.INCLUSIVE_EXCLUSIVE]
    (by decide)

/-- C9: RangeSet.pop fails with the KeyError on an empty set, and on a set
satisfying the representation invariant it removes and returns the first
member of the sorted internal list, which precedes every remaining member in
the Range ordering; by contrast IntervalTree.remove of an absent interval
swallows the underlying ValueError and leaves the tree contents unchanged,
and removing the same interval twice equals removing it once. -/
theorem C9_pop_loud_remove_silent :
    (∀ (α : Type) [inst : LinearOrder α],
      RangeSet.popE ([] : List (Range α)) =
        .error RangeSet.PopError.keyError) ∧
    (∀ (α : Type) [inst : LinearOrder α] (elem : Range α)
        (rest : List (Range α)),
      RangeSet.invariant (elem :: rest) →
      RangeSet.popE (elem :: rest) = .ok (elem, rest) ∧
      ∀ y ∈ rest, elem.lt y = true) ∧
    (∀ (β δ : Type) (t : List (Interval β δ)) (i : Interval β δ),
      (∀ x ∈ t, x.ident ≠ i.ident) →
      tree_removeE t i = .error TreeError.valueError ∧
      IntervalTree.remove t i = t) ∧
    (∀ (β δ : Type) (t : List (Interval β δ)) (i : Interval β δ),
      IntervalTree.remove (IntervalTree.remove t i) i =
        IntervalTree.remove t i) := by
  refine ⟨?_, ?_, ?_, ?_⟩
  · intro α inst
    rfl
  · intro α inst elem rest hinv
    refine ⟨RangeSet.pop_result hinv, ?_⟩
    intro y hy
    exact ((List.pairwise_cons.mp hinv.2).1 y hy).1
  · intro β δ t i h
    exact tree_remove_absent t i h
  · intro β δ t i
    exact tree_remove_remove t i

/-- C9 witness: popping a concrete two-member set returns the first member
and leaves the second; removing an identity-absent interval from a concrete
one-interval tree leaves it unchanged. -/
theorem C9_witness :
    RangeSet.popE
      [Range.mk (some (0 : Int)) (some 2) RangeBoundaries.INCLUSIVE_EXCLUSIVE,
       Range.mk (some 5) (some 7) RangeBoundaries.INCLUSIVE_EXCLUSIVE] =
      .ok (Range.mk (some 0) (some 2) RangeBoundaries.INCLUSIVE_EXCLUSIVE,
        [Range.mk (some 5) (some 7) RangeBoundaries.INCLUSIVE_EXCLUSIVE]) ∧
    IntervalTree.remove [Interval.mk 0 (0 : Int) 1 (0 : Int)]
      (Interval.mk 1 0 1 0) = [Interval.mk 0 0 1 0] :=
  ⟨(C9_pop_loud_remove_silent.2.1 Int _ _
      (by unfold RangeSet.invariant; decide)).1,
    (C9_pop_loud_remove_silent.2.2.1 Int Int _ _ (by decide)).2⟩

/-- C8: a RangeSet satisfying the representation invariant is disjoint from
its complement, whose members are all valid ranges (so its construction
never raises); the complement of the empty RangeSet is exactly the single
unbounded continuum range (None, None) with exclusive-exclusive
boundaries. -/
theorem C8_complement_disjoint :
    (∀ (α : Type) [inst : LinearOrder α] (ranges : List (Range α)),
      RangeSet.invariant ranges →
      RangeSet.is_disjoint ranges (RangeSet.complement ranges) = true ∧
      ∀ b ∈ RangeSet.complement ranges, b.valid = true) ∧
    (∀ (α : Type) [inst : LinearOrder α],
      RangeSet.complement ([] : List (Range α)) = [Range.continuum α]) := by
  refine ⟨?_, ?_⟩
  · intro α inst ranges hinv
    obtain ⟨hv, hpwc, hdisj⟩ := RangeSet.complement_list_props ranges hinv
    have hfix : RangeSet.complement ranges = RangeSet.complement_list ranges :=
      RangeSet.condense_fixpoint (RangeSet.complement_list ranges) hpwc
    rw [hfix]
    constructor
    · unfold RangeSet.is_disjoint
      rw [List.all_eq_true]
      intro a ha
      rw [List.all_eq_true]
      intro b hb
      exact hdisj a ha b hb
    · intro b hb
      exact hv b hb
  · intro α inst
    rfl

/-- C8 witness: a concrete two-member set is disjoint from its computed
complement, and the complement of the empty set is the continuum. -/
theorem C8_witness :
    RangeSet.is_disjoint
      [Range.mk (some (0 : Int)) (some 2) RangeBoundaries.INCLUSIVE_EXCLUSIVE,
       Range.mk (some 5) (some 7) RangeBoundaries.INCLUSIVE_EXCLUSIVE]
      (RangeSet.complement
        [Range.mk (some (0 : Int)) (some 2) RangeBoundaries.INCLUSIVE_EXCLUSIVE,
         Range.mk (some 5) (some 7) RangeBoundaries.INCLUSIVE_EXCLUSIVE]) =
      true :=
  (C8_complement_disjoint.1 Int
    [Range.mk (some 0) (some 2) RangeBoundaries.INCLUSIVE_EXCLUSIVE,
     Range.mk (some 5) (some 7) RangeBoundaries.INCLUSIVE_EXCLUSIVE]
    (by unfold RangeSet.invariant; decide)).1

end Xocto
